import Mathlib

/-!
# Verification of the rustpad padding-oracle attack engine

A shallow embedding, in Lean 4, of the core data model and operations of the
rustpad repository: the `Block` primitives (`src/block/mod.rs`), the
ciphertext codec (`src/cypher_text/mod.rs`), the forged-ciphertext byte-locking
state machine (`src/cypher_text/forged_cypher_text/mod.rs` and `solved.rs`),
the HTTP calibrator decision logic (`src/calibrator/mod.rs`), the persistent
result cache (`src/cache/mod.rs`), and the `solve_block` driver
(`src/divination/mod.rs`).

Machine bytes (`u8`) are modelled as `Nat` with explicit `% 256` where the
source can wrap, byte strings as `List Nat` of character codes, fallible Rust
functions (`Result`) as `Except String`, and panics as `Option`.  External
crates (`hex`, `base64` 0.13 with its default configs, `urlencoding`) are
modelled as executable Lean functions that agree with the crates on the ASCII
inputs exercised by the theorems.  A few `Block` methods are invoked by the
provided sources but defined in a file that is not among them
(`to_adjusted_for_padding`, `to_intermediate`, `as_cache_key`); those are
modelled from the specification text and carry a doc comment saying so.
-/

set_option linter.unusedVariables false

deriving instance DecidableEq for Except

namespace Rustpad

/-! ## List helpers used by the embedding -/

/-- Byte at position `i` of a byte list (`0` when out of range).  Stands for
the `data[i]` reads of the source; all uses are guarded by in-range facts. -/
def byteAt (l : List Nat) (i : Nat) : Nat := l.getD i 0

/-- The `mapIdxFrom f i l` rewrites each element of `l` with `f` applied to the
element's index (counting from `i`) and the element.  It embeds Rust loops of
the shape `for i in 0..len { data[i] = f(i, data[i]) }`. -/
def mapIdxFrom (f : Nat → Nat → Nat) : Nat → List Nat → List Nat
  | _, [] => []
  | i, x :: xs => f i x :: mapIdxFrom f (i + 1) xs

/-! ## `BlockSize` (src/block/block_size.rs) -/

/-- The `BlockSize`: discriminated variant over the two permitted block widths. -/
inductive BlockSize
  | eight
  | sixteen
deriving DecidableEq, Repr

/-- The `Deref` impl of `BlockSize`: its integral length, 8 or 16. -/
def BlockSize.val : BlockSize → Nat
  | .eight => 8
  | .sixteen => 16

/-! ## `Block` (src/block/mod.rs) -/

/-- The `Block`: a fixed-width byte sequence, either 8 or 16 bytes, tagged by
size.  The payload is a byte list; well-formedness (`Block.WF`) records the
length invariant the Rust arrays `[u8; 8]` / `[u8; 16]` carry by type. -/
inductive Block
  | eight (data : List Nat)
  | sixteen (data : List Nat)
deriving DecidableEq, Repr

/-- The `Deref` impl of `Block`: its raw byte data. -/
def Block.data : Block → List Nat
  | .eight d => d
  | .sixteen d => d

/-- The `impl From<&Block> for BlockSize`: the size tag of a block. -/
def Block.block_size : Block → BlockSize
  | .eight _ => .eight
  | .sixteen _ => .sixteen

/-- The `self.len()` on a block (length of the dereferenced byte slice). -/
def Block.len (b : Block) : Nat := b.data.length

/-- What the Rust types guarantee statically: an 8-byte (resp. 16-byte) block
holds exactly 8 (resp. 16) bytes, each below 256. -/
def Block.WF (b : Block) : Prop :=
  b.data.length = b.block_size.val ∧ ∀ x ∈ b.data, x < 256

instance (b : Block) : Decidable b.WF := by
  unfold Block.WF; infer_instance

/-- Rebuild a block with its data transformed; keeps the size tag.  Helper for
methods that read or rewrite `self` through `Deref`/`DerefMut`. -/
def Block.mapData (b : Block) (f : List Nat → List Nat) : Block :=
  match b with
  | .eight d => .eight (f d)
  | .sixteen d => .sixteen (f d)

/-- The `Block::new`: a zero-filled block of the given size. -/
def Block.new : BlockSize → Block
  | .eight => .eight (List.replicate 8 0)
  | .sixteen => .sixteen (List.replicate 16 0)

/-- The `Block::new_incremental_padding`: the byte pattern `[N, N-1, …, 2, 1]`. -/
def Block.new_incremental_padding : BlockSize → Block
  | .eight => .eight [8, 7, 6, 5, 4, 3, 2, 1]
  | .sixteen => .sixteen [16, 15, 14, 13, 12, 11, 10, 9, 8, 7, 6, 5, 4, 3, 2, 1]

/-- The `Block::set_byte`.  Faithful to the source, including its slip: the
8-byte arm performs `data[index] += value` (a u8 addition, wrapping in release
builds, here `% 256`) where the 16-byte arm performs `data[index] = value`.
An out-of-range index returns an error with the block untouched. -/
def Block.set_byte (b : Block) (index : Nat) (value : Nat) : Except String Block :=
  match b with
  | .eight data =>
      if index < 8 then
        .ok (.eight (data.set index ((byteAt data index + value) % 256)))
      else
        .error "Tried to increment byte of 8-byte block"
  | .sixteen data =>
      if index < 16 then
        .ok (.sixteen (data.set index value))
      else
        .error "Tried to increment byte of 16-byte block"

/-- The `Block::increment_byte`: error (rather than wrap to 0) when the byte is
`u8::MAX`, otherwise add exactly one; out-of-range index is an error. -/
def Block.increment_byte (b : Block) (idx : Nat) : Except String Block :=
  match b with
  | .eight data =>
      if idx < 8 then
        if byteAt data idx = 255 then
          .error "Can't increment byte without overflowing"
        else
          .ok (.eight (data.set idx (byteAt data idx + 1)))
      else
        .error "Tried to increment byte of 8-byte block"
  | .sixteen data =>
      if idx < 16 then
        if byteAt data idx = 255 then
          .error "Can't increment byte without overflowing"
        else
          .ok (.sixteen (data.set idx (byteAt data idx + 1)))
      else
        .error "Tried to increment byte of 16-byte block"

/-- The `Block::adjust_for_incremented_padding`: with `old = new_pad_size - 1` and
`xor_diff = old XOR new_pad_size`, XOR `xor_diff` into the positions
`self.len() - old .. self.len()`.  Callers always pass `new_pad_size ≥ 1`;
`new_pad_size = 0` would underflow the u8 subtraction in the source. -/
def Block.adjust_for_incremented_padding (b : Block) (new_pad_size : Nat) : Block :=
  let old_pad_size := new_pad_size - 1
  let xor_diff := Nat.xor old_pad_size new_pad_size
  b.mapData fun data =>
    mapIdxFrom (fun i x => if data.length - old_pad_size ≤ i then Nat.xor x xor_diff else x)
      0 data

/-- The `BitXor for &Block` impl: blocks of equal size are XOR-ed pointwise
(the source checks `block_size` equality, then zips the byte slices); blocks
of different sizes produce an error. -/
def Block.xor : Block → Block → Except String Block
  | .eight d1, .eight d2 => .ok (.eight (List.zipWith Nat.xor d1 d2))
  | .sixteen d1, .sixteen d2 => .ok (.sixteen (List.zipWith Nat.xor d1 d2))
  | _, _ => .error "Can't XOR blocks of different sizes"

/-- Modelled from the spec: `to_intermediate(block) ≝ block XOR
incremental_padding(size)`.  `Block::to_intermediate` is invoked from
`solved.rs`, the encryptor and the TUI, but its definition is not among the
provided sources.  The two operands always share a size, so the XOR is the
plain pointwise one. -/
def Block.to_intermediate (b : Block) : Block :=
  b.mapData fun d => List.zipWith Nat.xor d (Block.new_incremental_padding b.block_size).data

/-- Modelled from the spec: `to_padding_adjusted(block, pad_size)` returns a
clone with the last `pad_size` bytes rewritten to encode padding value
`pad_size` — for `i` among the last `pad_size` positions,
`out[i] = block[i] XOR (size − i) XOR pad_size`.  `Block::to_adjusted_for_padding`
is invoked from `ForgedCypherText::encode` but its definition is not among the
provided sources. -/
def Block.to_adjusted_for_padding (b : Block) (pad_size : Nat) : Block :=
  b.mapData fun d =>
    mapIdxFrom
      (fun i x => if d.length - pad_size ≤ i then Nat.xor (Nat.xor x (d.length - i)) pad_size else x)
      0 d

/-- Iterating the source's in-place `adjust_for_incremented_padding` over the
successive padding sizes `2, 3, …, k` — the eager per-lock adjustment strategy
of the `BlockQuestion` engine variant (`src/block/block_question/mod.rs`). -/
def Block.adjustIter (b : Block) (k : Nat) : Block :=
  (List.range' 2 (k - 1)).foldl (fun blk p => blk.adjust_for_incremented_padding p) b

/-! ## Models of the external codec crates

Strings are ASCII byte lists (`List Nat` of character codes).  The models
below follow the behaviour of the `hex`, `base64` (v0.13, default configs)
and `urlencoding` crates on the ASCII inputs the theorems exercise. -/

/-- Value of an ASCII hex digit; the `hex` crate accepts both cases. -/
def hexVal (c : Nat) : Option Nat :=
  if 48 ≤ c ∧ c ≤ 57 then some (c - 48)
  else if 97 ≤ c ∧ c ≤ 102 then some (c - 87)
  else if 65 ≤ c ∧ c ≤ 70 then some (c - 55)
  else none

/-- Lowercase hex digit for a value below 16, as emitted by `hex::encode`. -/
def hexDigit (v : Nat) : Nat :=
  if v < 10 then 48 + v else 87 + v

/-- Model of `hex::encode`: two lowercase hex digits per byte. -/
def hexEncode (bytes : List Nat) : List Nat :=
  bytes.flatMap fun b => [hexDigit (b / 16), hexDigit (b % 16)]

/-- Model of `hex::decode`: pairs of hex digits (either case); odd length or a
non-digit is an error. -/
def hexDecode : List Nat → Option (List Nat)
  | [] => some []
  | [_] => none
  | c1 :: c2 :: rest =>
      match hexVal c1, hexVal c2 with
      | some v1, some v2 => (hexDecode rest).map fun bs => (v1 * 16 + v2) :: bs
      | _, _ => none

/-- The standard base64 alphabet, as character codes. -/
def b64StdAlphabet : List Nat :=
  [65, 66, 67, 68, 69, 70, 71, 72, 73, 74, 75, 76, 77, 78, 79, 80, 81, 82, 83,
   84, 85, 86, 87, 88, 89, 90, 97, 98, 99, 100, 101, 102, 103, 104, 105, 106,
   107, 108, 109, 110, 111, 112, 113, 114, 115, 116, 117, 118, 119, 120, 121,
   122, 48, 49, 50, 51, 52, 53, 54, 55, 56, 57, 43, 47]

/-- The URL-safe base64 alphabet: `-` and `_` replace `+` and `/`. -/
def b64UrlAlphabet : List Nat :=
  [65, 66, 67, 68, 69, 70, 71, 72, 73, 74, 75, 76, 77, 78, 79, 80, 81, 82, 83,
   84, 85, 86, 87, 88, 89, 90, 97, 98, 99, 100, 101, 102, 103, 104, 105, 106,
   107, 108, 109, 110, 111, 112, 113, 114, 115, 116, 117, 118, 119, 120, 121,
   122, 48, 49, 50, 51, 52, 53, 54, 55, 56, 57, 45, 95]

/-- Character for a 6-bit value under the given alphabet. -/
def b64Char (alphabet : List Nat) (v : Nat) : Nat := byteAt alphabet v

/-- 6-bit value of a character under the given alphabet, if it belongs to it. -/
def b64Idx (alphabet : List Nat) (c : Nat) : Option Nat :=
  alphabet.findIdx? fun a => a == c

/-- Model of `base64::encode_config` with a padded config: groups of three
bytes become four alphabet characters; a trailing group of one or two bytes is
completed with `=` (code 61) padding. -/
def b64Encode (alphabet : List Nat) : List Nat → List Nat
  | [] => []
  | [b1] =>
      [b64Char alphabet (b1 / 4), b64Char alphabet (b1 % 4 * 16), 61, 61]
  | [b1, b2] =>
      [b64Char alphabet (b1 / 4), b64Char alphabet (b1 % 4 * 16 + b2 / 16),
       b64Char alphabet (b2 % 16 * 4), 61]
  | b1 :: b2 :: b3 :: rest =>
      b64Char alphabet (b1 / 4) :: b64Char alphabet (b1 % 4 * 16 + b2 / 16) ::
      b64Char alphabet (b2 % 16 * 4 + b3 / 64) :: b64Char alphabet (b3 % 64) ::
      b64Encode alphabet rest

/-- Model of `base64::decode_config` with a padded config, on padded input:
groups of four characters; `=` padding only in a final group; non-zero unused
trailing bits are rejected (`decode_allow_trailing_bits` is off by default). -/
def b64Decode (alphabet : List Nat) : List Nat → Option (List Nat)
  | [] => some []
  | c1 :: c2 :: c3 :: c4 :: rest =>
      match b64Idx alphabet c1, b64Idx alphabet c2 with
      | some v1, some v2 =>
          if c3 = 61 then
            if c4 = 61 ∧ rest = [] ∧ v2 % 16 = 0 then
              some [v1 * 4 + v2 / 16]
            else none
          else
            match b64Idx alphabet c3 with
            | some v3 =>
                if c4 = 61 then
                  if rest = [] ∧ v3 % 4 = 0 then
                    some [v1 * 4 + v2 / 16, v2 % 16 * 16 + v3 / 4]
                  else none
                else
                  match b64Idx alphabet c4 with
                  | some v4 =>
                      (b64Decode alphabet rest).map fun bs =>
                        (v1 * 4 + v2 / 16) :: (v2 % 16 * 16 + v3 / 4) :: (v3 % 4 * 64 + v4) :: bs
                  | none => none
            | none => none
      | _, _ => none
  | _ => none

/-- Characters the `urlencoding` crate leaves unescaped: ASCII alphanumerics
and `-`, `.`, `_`, `~`. -/
def urlUnreserved (c : Nat) : Bool :=
  (48 ≤ c ∧ c ≤ 57) ∨ (65 ≤ c ∧ c ≤ 90) ∨ (97 ≤ c ∧ c ≤ 122) ∨
    c = 45 ∨ c = 46 ∨ c = 95 ∨ c = 126

/-- Uppercase hex digit, as used by `urlencoding::encode` escapes. -/
def hexDigitUpper (v : Nat) : Nat :=
  if v < 10 then 48 + v else 55 + v

/-- Model of `urlencoding::encode`: every byte outside the unreserved set
becomes `%XX` with uppercase hex. -/
def urlEncode (s : List Nat) : List Nat :=
  s.flatMap fun c =>
    if urlUnreserved c then [c] else [37, hexDigitUpper (c / 16), hexDigitUpper (c % 16)]

/-- Model of `urlencoding::decode`: `%` followed by two hex digits (either
case) decodes to that byte, a `%` not starting a valid escape is kept
verbatim; the crate then re-validates the result as UTF-8, which for the
ASCII-only inputs of this development means every decoded byte is below 128
(`none` models the crate's `Err`). -/
def urlDecodeGo : Nat → List Nat → Option (List Nat)
  | _, [] => some []
  | 0, _ => none
  | fuel + 1, c :: rest =>
      if c = 37 then
        match rest with
        | c1 :: c2 :: rest2 =>
            match hexVal c1, hexVal c2 with
            | some v1, some v2 =>
                if v1 * 16 + v2 < 128 then
                  (urlDecodeGo fuel rest2).map fun s => (v1 * 16 + v2) :: s
                else none
            | _, _ => (urlDecodeGo fuel rest).map fun s => c :: s
        | _ => (urlDecodeGo fuel rest).map fun s => c :: s
      else
        (urlDecodeGo fuel rest).map fun s => c :: s

def urlDecode (s : List Nat) : Option (List Nat) := urlDecodeGo s.length s

/-! ## The ciphertext codec (src/cypher_text/mod.rs, src/cypher_text/encode.rs) -/

/-- The `Encoding` (src/cypher_text/encode.rs): the inner encoding remembered
from parsing. -/
inductive Encoding
  | hex
  | base64
  | base64Url
deriving DecidableEq, Repr

/-- The `EncodingOption` (src/config/encoding_option.rs): the user's encoding
choice, `auto` meaning detection. -/
inductive EncodingOption
  | auto
  | hex
  | base64
  | base64Url
deriving DecidableEq, Repr

/-- The `impl TryFrom<&EncodingOption> for Encoding`: every option except `auto`
names a concrete encoding. -/
def Encoding.try_from : EncodingOption → Except String Encoding
  | .auto => .error "`EncodingOption::Auto` cannot be converted into a specific `Encoding`"
  | .hex => .ok .hex
  | .base64 => .ok .base64
  | .base64Url => .ok .base64Url

/-- The `CypherText`: ordered sequence of equal-sized blocks plus the two flags
recording how the input string was encoded. -/
structure CypherText where
  blocks : List Block
  url_encoded : Bool
  used_encoding : Encoding
deriving DecidableEq, Repr

/-- The `amount_blocks` for a ciphertext. -/
def CypherText.amount_blocks (ct : CypherText) : Nat := ct.blocks.length

/-- The `block_size` for a ciphertext: the size of block 0 (the source indexes
`blocks()[0]`, so callers guarantee non-emptiness). -/
def CypherText.block_size (ct : CypherText) : BlockSize :=
  (ct.blocks.headD (Block.eight (List.replicate 8 0))).block_size

/-- The `Block: From<&[u8]>`: a chunk of a supported length becomes the matching
variant.  The panic on other lengths cannot fire from `split_into_blocks`,
which always passes chunks of exactly the block size; the 16-byte fallback is
a dead default. -/
def bytesToBlock (chunk : List Nat) : Block :=
  if chunk.length = 8 then Block.eight chunk else Block.sixteen chunk

/-- Step-counted worker for `chunkBytes`: one unit of fuel per emitted chunk;
the fuel never runs out because each chunk consumes at least one byte. -/
def chunkBytesGo (bs : BlockSize) : Nat → List Nat → List (List Nat)
  | _, [] => []
  | 0, _ => []
  | fuel + 1, x :: xs => (x :: xs).take bs.val :: chunkBytesGo bs fuel ((x :: xs).drop bs.val)

/-- The `chunks_exact` traversal of `split_into_blocks`: cut the byte list
into consecutive chunks of `bs.val` bytes (callers have checked
divisibility). -/
def chunkBytes (bs : BlockSize) (l : List Nat) : List (List Nat) :=
  chunkBytesGo bs l.length l

/-- The `split_into_blocks`: a length that is not a multiple of the block size is
a user error; otherwise cut into blocks. -/
def split_into_blocks (decoded_data : List Nat) (block_size : BlockSize) :
    Except String (List Block) :=
  if decoded_data.length % block_size.val ≠ 0 then
    .error "Splitting cypher text into blocks failed. Double check the block size"
  else
    .ok ((chunkBytes block_size decoded_data).map bytesToBlock)

/-- The `decode` helper of `CypherText::parse`: `auto` tries hex, then
standard base64, then URL-safe base64, first success winning; a forced option
is enforced. -/
def decode (input_data : List Nat) (encoding : EncodingOption) :
    Except String (List Nat × Encoding) :=
  match encoding with
  | .auto =>
      match hexDecode input_data with
      | some decoded_data => .ok (decoded_data, .hex)
      | none =>
          match b64Decode b64StdAlphabet input_data with
          | some decoded_data => .ok (decoded_data, .base64)
          | none =>
              match b64Decode b64UrlAlphabet input_data with
              | some decoded_data => .ok (decoded_data, .base64Url)
              | none => .error "invalid or unsupported encoding"
  | opt =>
      match Encoding.try_from opt with
      | .error e => .error e
      | .ok enc =>
          let decoded := match enc with
            | .hex => hexDecode input_data
            | .base64 => b64Decode b64StdAlphabet input_data
            | .base64Url => b64Decode b64UrlAlphabet input_data
          match decoded with
          | some decoded_data => .ok (decoded_data, enc)
          | none => .error "not validly encoded"

/-- The `CypherText::parse`: optional single URL-decode (failure falls back to the
input), inner decode, split into blocks, optional synthetic zero IV, and the
at-least-two-blocks check.  `url_encoded` records whether URL-decoding changed
the string. -/
def CypherText.parse (input_data : List Nat) (block_size : BlockSize) (no_iv : Bool)
    (encoding : EncodingOption) (no_url_encode : Bool) : Except String CypherText :=
  let url_decoded :=
    if no_url_encode then input_data
    else (urlDecode input_data).getD input_data
  match decode url_decoded encoding with
  | .error e => .error e
  | .ok (decoded_data, used_encoding) =>
      match split_into_blocks decoded_data block_size with
      | .error e => .error e
      | .ok blocks =>
          let blocks := if no_iv then Block.new block_size :: blocks else blocks
          if blocks.length = 1 then
            .error "Decryption impossible with only 1 block"
          else
            .ok { blocks := blocks
                  url_encoded := input_data ≠ url_decoded
                  used_encoding := used_encoding }

/-- The inner-encoding match shared by `CypherText::encode` and
`ForgedCypherText::encode`. -/
def encodeData (used_encoding : Encoding) (raw_bytes : List Nat) : List Nat :=
  match used_encoding with
  | .hex => hexEncode raw_bytes
  | .base64 => b64Encode b64StdAlphabet raw_bytes
  | .base64Url => b64Encode b64UrlAlphabet raw_bytes

/-- The `CypherText::encode` (the `Encode` impl): flatten the blocks, apply the
remembered inner encoding, then the outer URL-encoding if recorded. -/
def CypherText.encode (ct : CypherText) : List Nat :=
  let raw_bytes := ct.blocks.flatMap Block.data
  let encoded_data := encodeData ct.used_encoding raw_bytes
  if ct.url_encoded then urlEncode encoded_data else encoded_data

/-- The encoding option naming a concrete encoding, as a forced `--encoding`
choice would. -/
def EncodingOption.of : Encoding → EncodingOption
  | .hex => .hex
  | .base64 => .base64
  | .base64Url => .base64Url

/-- Well-formedness of a parsed ciphertext: at least two blocks (`parse`
enforces this), every block well-formed and of the common block size. -/
def CypherText.WF (ct : CypherText) : Prop :=
  2 ≤ ct.blocks.length ∧ ∀ b ∈ ct.blocks, b.WF ∧ b.block_size = ct.block_size

instance (ct : CypherText) : Decidable ct.WF := by
  unfold CypherText.WF; infer_instance

/-! ## `ForgedCypherText` (src/cypher_text/forged_cypher_text/mod.rs) -/

/-- Per-target-block mutable state: the immutable prefix of the original
ciphertext up to and including the block to decrypt, the two encoding flags,
the cursor, the work-in-progress forged block and the accumulated solution. -/
structure ForgedCypherText where
  original_blocks : List Block
  url_encoded : Bool
  used_encoding : Encoding
  current_byte_idx : Nat
  forged_block_wip : Block
  forged_block_solution : Block
deriving DecidableEq, Repr

/-- The `block_size` of a forged ciphertext: size of `blocks()[0]`. -/
def ForgedCypherText.block_size (f : ForgedCypherText) : BlockSize :=
  (f.original_blocks.headD (Block.eight (List.replicate 8 0))).block_size

/-- The `amount_blocks` of a forged ciphertext. -/
def ForgedCypherText.amount_blocks (f : ForgedCypherText) : Nat :=
  f.original_blocks.length

/-- The `ForgedCypherText::from_cypher_text`: keep the original blocks up to and
including the block to decrypt, set the cursor to `blocksize - 1`, zero the
work and solution blocks.  The source panics when the index exceeds the last
block (`none` here). -/
def ForgedCypherText.from_cypher_text (cypher_text : CypherText)
    (block_to_decrypt_idx : Nat) : Option ForgedCypherText :=
  if block_to_decrypt_idx > cypher_text.amount_blocks - 1 then
    none
  else
    some
      { original_blocks := cypher_text.blocks.take (block_to_decrypt_idx + 1)
        url_encoded := cypher_text.url_encoded
        used_encoding := cypher_text.used_encoding
        current_byte_idx := cypher_text.block_size.val - 1
        forged_block_wip := Block.new cypher_text.block_size
        forged_block_solution := Block.new cypher_text.block_size }

/-- The `ForgedCypherText::set_current_byte`: write the candidate value into the
WIP block at the cursor through `Block::set_byte`, whose `Result` the source
silently discards (on error the WIP block is left untouched). -/
def ForgedCypherText.set_current_byte (f : ForgedCypherText) (value : Nat) :
    ForgedCypherText :=
  { f with
    forged_block_wip :=
      match f.forged_block_wip.set_byte f.current_byte_idx value with
      | .ok b => b
      | .error _ => f.forged_block_wip }

/-- The `SolvedForgedCypherText` (solved.rs): the immutable solved form. -/
structure SolvedForgedCypherText where
  original_blocks : List Block
  url_encoded : Bool
  used_encoding : Encoding
  forged_block_solution : Block
deriving DecidableEq, Repr

/-- The `amount_blocks` of a solved forged ciphertext. -/
def SolvedForgedCypherText.amount_blocks (s : SolvedForgedCypherText) : Nat :=
  s.original_blocks.length

/-- The `impl From<ForgedCypherText> for SolvedForgedCypherText`. -/
def SolvedForgedCypherText.from_forged (f : ForgedCypherText) : SolvedForgedCypherText :=
  { original_blocks := f.original_blocks
    url_encoded := f.url_encoded
    used_encoding := f.used_encoding
    forged_block_solution := f.forged_block_solution }

/-- The `impl From<(ForgedCypherText, Block)>`: a solved form built from a cached
solution block. -/
def SolvedForgedCypherText.from_cached (f : ForgedCypherText)
    (forged_block_solution : Block) : SolvedForgedCypherText :=
  { original_blocks := f.original_blocks
    url_encoded := f.url_encoded
    used_encoding := f.used_encoding
    forged_block_solution := forged_block_solution }

/-- The `ByteLockResult`: either bytes remain or the block is solved. -/
inductive ByteLockResult
  | bytesLeft (f : ForgedCypherText)
  | solved (s : SolvedForgedCypherText)
deriving DecidableEq, Repr

/-- The `self.forged_block_solution[idx] = v` store of `lock_byte`
(`IndexMut` through `DerefMut`): plain positional assignment. -/
def Block.store (b : Block) (i : Nat) (v : Nat) : Block :=
  b.mapData fun d => d.set i v

/-- The `ForgedCypherText::lock_byte`: copy the WIP byte at the cursor into the
solution block; at cursor 0 the block is solved, otherwise the cursor moves
one position to the left. -/
def ForgedCypherText.lock_byte (f : ForgedCypherText) : ByteLockResult :=
  let idx := f.current_byte_idx
  let f := { f with
    forged_block_solution :=
      f.forged_block_solution.store idx (byteAt f.forged_block_wip.data idx) }
  if idx = 0 then
    .solved (SolvedForgedCypherText.from_forged f)
  else
    .bytesLeft { f with current_byte_idx := idx - 1 }

/-- The `ForgedCypherText::bytes_answered`. -/
def ForgedCypherText.bytes_answered (f : ForgedCypherText) : Nat :=
  (f.block_size.val - 1) - f.current_byte_idx

/-- The padding-adjusted block that `ForgedCypherText::encode` transmits in
place of the raw WIP block:
`forged_block_wip.to_adjusted_for_padding(blocksize - current_byte_idx)`. -/
def ForgedCypherText.transmitted_forged_block (f : ForgedCypherText) : Block :=
  f.forged_block_wip.to_adjusted_for_padding (f.block_size.val - f.current_byte_idx)

/-- The `ForgedCypherText::encode` (the `Encode` impl): prefix blocks, then the
padding-adjusted forged block, then the block to decrypt, flattened and put
through the same inner/outer encodings as `CypherText::encode`. -/
def ForgedCypherText.encode (f : ForgedCypherText) : List Nat :=
  let prefixBlocks := f.original_blocks.take (f.amount_blocks - 2)
  let to_decrypt_block := f.original_blocks.drop (f.amount_blocks - 1)
  let raw_bytes :=
    (prefixBlocks ++ [f.transmitted_forged_block] ++ to_decrypt_block).flatMap Block.data
  let encoded_data := encodeData f.used_encoding raw_bytes
  if f.url_encoded then urlEncode encoded_data else encoded_data

/-- Step-counted worker for `lockTrace`: one unit of fuel per cursor
position below the starting one; with fuel equal to the starting cursor the
fuel reaches 0 exactly when `lock_byte` returns `Solved`. -/
def ForgedCypherText.lockTraceGo : Nat → ForgedCypherText → List Nat
  | 0, f => [f.current_byte_idx]
  | fuel + 1, f =>
      match f.lock_byte with
      | .solved _ => [f.current_byte_idx]
      | .bytesLeft f2 => f.current_byte_idx :: lockTraceGo fuel f2

/-- The sequence of cursor positions at which `lock_byte` locks bytes when a
solver repeatedly locks until the block is solved. -/
def ForgedCypherText.lockTrace (f : ForgedCypherText) : List Nat :=
  lockTraceGo f.current_byte_idx f

/-- The `SolvedForgedCypherText::block_to_decrypt`: the last original block. -/
def SolvedForgedCypherText.block_to_decrypt (s : SolvedForgedCypherText) : Block :=
  (s.original_blocks.getD (s.amount_blocks - 1) (Block.eight (List.replicate 8 0)))

/-- The `SolvedForgedCypherText::original_forged_block`: the original block in the
position of the forged block (second to last). -/
def SolvedForgedCypherText.original_forged_block (s : SolvedForgedCypherText) : Block :=
  (s.original_blocks.getD (s.amount_blocks - 2) (Block.eight (List.replicate 8 0)))

/-- The `SolvedForgedCypherText::plain_text_solution`:
`forged_block_solution.to_intermediate() ^ original_forged_block()`.  The
source renders the resulting block as a string through a `Display` impl that
is not among the provided sources; the block value is what the claims are
about. -/
def SolvedForgedCypherText.plain_text_solution (s : SolvedForgedCypherText) :
    Except String Block :=
  Block.xor s.forged_block_solution.to_intermediate s.original_forged_block

/-! ## Calibrator (src/calibrator/mod.rs, calibration_response.rs) -/

/-- The `CalibrationResponse`: the parts of a web response relevant to the
padding decision — status code, optional `Location` header bytes, optional
body, optional content length.  Derived equality is the structural equality
of the `Eq`/`Hash` derives. -/
structure CalibrationResponse where
  status : Nat
  location : Option (List Nat)
  content : Option (List Nat)
  content_length : Option Nat
deriving DecidableEq, Repr

/-- One step of the frequency fold of `determine_padding_error_response`
(`*acc.entry(response).or_default() += 1`).  The `HashMap` is modelled as an
association list in first-occurrence order; which order the map iterates in
affects none of the proved properties. -/
def bumpCount (acc : List (CalibrationResponse × Nat)) (response : CalibrationResponse) :
    List (CalibrationResponse × Nat) :=
  if acc.any fun p => p.1 == response then
    acc.map fun p => if p.1 == response then (p.1, p.2 + 1) else p
  else
    acc ++ [(response, 1)]

/-- The frequency map of the 256 calibration responses. -/
def countResponses (responses : List CalibrationResponse) :
    List (CalibrationResponse × Nat) :=
  responses.foldl bumpCount []

/-- The `Iterator::max_by_key` on the frequency map: among equal counts the last
element of the iteration wins. -/
def maxByCount : List (CalibrationResponse × Nat) → Option (CalibrationResponse × Nat)
  | [] => none
  | p :: ps => some (ps.foldl (fun best q => if best.2 ≤ q.2 then q else best) p)

/-- The decision logic of `Calibrator::determine_padding_error_response`,
taking the list of `CalibrationResponse`s built from the 256 calibration
requests (the HTTP round-trips themselves are outside the embedding): fewer
than two distinct responses is a user-actionable error suggesting
`--consider-body`; otherwise the most frequent response is the padding-error
signature. -/
def determine_padding_error_response (responses : List CalibrationResponse) :
    Except String CalibrationResponse :=
  let counted_responses := countResponses responses
  if counted_responses.length < 2 then
    .error "Calibration of the web oracle failed. We don't know how a response to (in)correct padding looks, as all responses looked the same. Try adding the `--consider-body` flag"
  else
    match maxByCount counted_responses with
    | some p => .ok p.1
    | none => .error "no responses received"

/-! ## Cache (src/cache/mod.rs, src/cache/cache_config.rs) -/

/-- The `SerializableOracleLocation`: oracle identity as stored in the cache key
(URL string or script path, both as byte strings). -/
inductive SerializableOracleLocation
  | web (url : List Nat)
  | script (path : List Nat)
deriving DecidableEq, Repr

/-- The `SerializableCalibrationResponse`: the cache-file form of a calibration
response (status as `u16`, header as raw bytes). -/
structure SerializableCalibrationResponse where
  status : Nat
  location : Option (List Nat)
  content : Option (List Nat)
  content_length : Option Nat
deriving DecidableEq, Repr

/-- The `impl From<CalibrationResponse> for SerializableCalibrationResponse`. -/
def SerializableCalibrationResponse.from_response (r : CalibrationResponse) :
    SerializableCalibrationResponse :=
  { status := r.status
    location := r.location
    content := r.content
    content_length := r.content_length }

/-- The `CacheConfig`: composite identity `{oracle_location, optional calibration
signature}`; equality is the structural equality of the derives. -/
structure CacheConfig where
  oracle_location : SerializableOracleLocation
  calibration_response : Option SerializableCalibrationResponse
deriving DecidableEq, Repr

/-- The `HashMap::get`, on the association-list model of a hash map. -/
def mapGet {K V : Type} [DecidableEq K] (m : List (K × V)) (k : K) : Option V :=
  (m.find? fun p => p.1 == k).map fun p => p.2

/-- The `HashMap::insert`, on the association-list model: replace the binding if
the key is present, append it otherwise. -/
def mapInsert {K V : Type} [DecidableEq K] (m : List (K × V)) (k : K) (v : V) :
    List (K × V) :=
  if m.any fun p => p.1 == k then
    m.map fun p => if p.1 == k then (k, v) else p
  else
    m ++ [(k, v)]

/-- The `Cache`: the current `CacheConfig` plus the two-level map
`CacheConfig → ((prev_block, target_block) → solved forged block)`.  The
backing `cache.bin` file handle and the MessagePack (de)serialization are
I/O and stay outside the embedding. -/
structure Cache where
  config : CacheConfig
  data : List (CacheConfig × List ((Block × Block) × Block))
deriving DecidableEq, Repr

/-- The `Cache::get`: look up the inner map stored under the cache's own config,
then the `(prev_block, target_block)` key inside it. -/
def Cache.get (c : Cache) (key : Block × Block) : Option Block :=
  (mapGet c.data c.config).bind fun blocks_mapping => mapGet blocks_mapping key

/-- The `Cache::insert`: `entry(config).or_insert_with(HashMap::new)` then insert
the pair under the cache's own config.  The atomic truncate-and-rewrite of the
cache file is I/O and is elided. -/
def Cache.insert (c : Cache) (key : Block × Block) (value : Block) : Cache :=
  let inner := (mapGet c.data c.config).getD []
  { c with data := mapInsert c.data c.config (mapInsert inner key value) }

/-! ## `solve_block` (src/divination/mod.rs) -/

/-- Modelled from the spec: the cache key `(prev_block, target_block)` of a
forged ciphertext — the original block preceding the block to decrypt, paired
with the block to decrypt.  `ForgedCypherText::as_cache_key` is invoked from
`solve_block` but its definition is not among the provided sources. -/
def ForgedCypherText.as_cache_key (f : ForgedCypherText) : Block × Block :=
  (f.original_blocks.getD (f.amount_blocks - 2) (Block.eight (List.replicate 8 0)),
   f.original_blocks.getD (f.amount_blocks - 1) (Block.eight (List.replicate 8 0)))

/-- The cache-miss loop of `solve_block`: search the current byte over the
256 candidate values, lock it, and recurse until the block is solved.  The
oracle is modelled as a deterministic predicate on the transmitted forged
ciphertext state, so the Fibonacci-backoff transport retries and the byte
retry budget — which with a deterministic oracle only repeat the identical
outcome — collapse into a single failed search.  Returns the solution
together with the per-byte progress units emitted (one per locked byte). -/
def solveLoopGo (oracle : ForgedCypherText → Bool) :
    Nat → ForgedCypherText → Except String (SolvedForgedCypherText × List Nat)
  | fuel, f =>
      match (List.range 256).find? (fun byte_value => oracle (f.set_current_byte byte_value)) with
      | none => .error "decryption failed"
      | some byte_value =>
          match (f.set_current_byte byte_value).lock_byte with
          | .solved solution => .ok (solution, [1])
          | .bytesLeft f2 =>
              match fuel with
              | 0 => .error "decryption failed"
              | fuel + 1 => (solveLoopGo oracle fuel f2).map fun r => (r.1, 1 :: r.2)

def solve_loop (oracle : ForgedCypherText → Bool) (f : ForgedCypherText) :
    Except String (SolvedForgedCypherText × List Nat) :=
  solveLoopGo oracle f.current_byte_idx f

/-- The `solve_block`: a cache hit short-circuits — one progress tick of a full
block's worth of units and a `Solved` built from the cached block, no oracle
involvement; a miss runs the byte-locking loop and, on completion, inserts
the solved forged block into the cache under the same key.  The result
carries the solution, the cache after the call, and the progress units
emitted in order. -/
def solve_block (oracle : ForgedCypherText → Bool) (cache : Option Cache)
    (cypher_text_for_block : ForgedCypherText) :
    Except String (SolvedForgedCypherText × Option Cache × List Nat) :=
  match (cache.bind fun c => c.get cypher_text_for_block.as_cache_key) with
  | some cached_block =>
      .ok (SolvedForgedCypherText.from_cached cypher_text_for_block cached_block,
           cache, [cached_block.block_size.val])
  | none =>
      (solve_loop oracle cypher_text_for_block).map fun r =>
        (r.1,
         cache.map fun c =>
           c.insert cypher_text_for_block.as_cache_key r.1.forged_block_solution,
         r.2)

/-! ## Concrete sample values used by the witness theorems -/

/-- A two-block ciphertext of 8-byte blocks. -/
def sampleCt : CypherText :=
  { blocks := [Block.eight [9, 9, 9, 9, 9, 9, 9, 9], Block.eight [1, 2, 3, 4, 5, 6, 7, 8]]
    url_encoded := false
    used_encoding := .hex }

/-- The forged state created from `sampleCt` for target block 1. -/
def sampleForged : ForgedCypherText :=
  { original_blocks := [Block.eight [9, 9, 9, 9, 9, 9, 9, 9], Block.eight [1, 2, 3, 4, 5, 6, 7, 8]]
    url_encoded := false
    used_encoding := .hex
    current_byte_idx := 7
    forged_block_wip := Block.eight [0, 0, 0, 0, 0, 0, 0, 0]
    forged_block_solution := Block.eight [0, 0, 0, 0, 0, 0, 0, 0] }

/-- Like `sampleForged`, but with the cursor advanced to position 5 and a
non-trivial WIP block, as after three locked bytes. -/
def sampleForgedMid : ForgedCypherText :=
  { original_blocks := [Block.eight [9, 9, 9, 9, 9, 9, 9, 9], Block.eight [1, 2, 3, 4, 5, 6, 7, 8]]
    url_encoded := false
    used_encoding := .hex
    current_byte_idx := 5
    forged_block_wip := Block.eight [3, 1, 4, 1, 5, 9, 2, 6]
    forged_block_solution := Block.eight [0, 0, 0, 0, 0, 9, 2, 6] }

/-- A script-oracle cache identity. -/
def cfgScript : CacheConfig :=
  { oracle_location := .script [111, 46, 115, 104]
    calibration_response := none }

/-- A web-oracle cache identity with a calibration signature. -/
def cfgWeb : CacheConfig :=
  { oracle_location := .web [104, 116, 116, 112]
    calibration_response :=
      some ⟨200, none, none, some 7⟩ }

/-- The `(prev_block, target_block)` key of `sampleCt`'s target block 1. -/
def sampleKey : Block × Block :=
  (Block.eight [9, 9, 9, 9, 9, 9, 9, 9], Block.eight [1, 2, 3, 4, 5, 6, 7, 8])

/-- A solved forged block for the cache. -/
def sampleCachedBlock : Block := Block.eight [42, 1, 2, 3, 4, 5, 6, 7]

/-- A cache whose only stored entry lives under `cfgWeb`, operated with
current config `cfgScript`. -/
def sampleCache : Cache :=
  { config := cfgScript
    data := [(cfgWeb, [(sampleKey, sampleCachedBlock)])] }

/-- A cache with `sampleKey` stored under the cache's own config. -/
def sampleCacheHit : Cache :=
  { config := cfgScript
    data := [(cfgScript, [(sampleKey, sampleCachedBlock)])] }

/-- The solved state `solve_block` reaches from `sampleForged` under an
always-true oracle (every candidate byte 0 accepted, so the solution block
stays all zeros). -/
def sampleSolvedZero : SolvedForgedCypherText :=
  { original_blocks := [Block.eight [9, 9, 9, 9, 9, 9, 9, 9], Block.eight [1, 2, 3, 4, 5, 6, 7, 8]]
    url_encoded := false
    used_encoding := .hex
    forged_block_solution := Block.eight [0, 0, 0, 0, 0, 0, 0, 0] }

/-- A "valid padding" style calibration response. -/
def respA : CalibrationResponse := ⟨200, none, none, none⟩

/-- A distinct calibration response (the rare outlier). -/
def respB : CalibrationResponse := ⟨403, some [47, 101], none, none⟩

/-- A 256-response calibration outcome: 255 times `respA`, once `respB`. -/
def sampleResponses : List CalibrationResponse := List.replicate 255 respA ++ [respB]

/-- Three zero blocks under standard base64: its encoding is 32 `A`s, a
string that is simultaneously valid hex. -/
def ctAllZero : CypherText :=
  { blocks := List.replicate 3 (Block.eight (List.replicate 8 0))
    url_encoded := false
    used_encoding := .base64 }

/-- A two-block base64 ciphertext marked as URL-encoded. -/
def sampleCtUrl : CypherText :=
  { blocks := [Block.eight [9, 9, 9, 9, 9, 9, 9, 9], Block.eight [1, 2, 3, 4, 5, 6, 7, 8]]
    url_encoded := true
    used_encoding := .base64 }

/-- The invariant tying the frequency-fold accumulator to the prefix of
responses already processed: stored counts are exact, stored keys are exactly
the distinct responses seen, and keys are not duplicated. -/
def CountInv (processed : List CalibrationResponse)
    (acc : List (CalibrationResponse × Nat)) : Prop :=
  (∀ p ∈ acc, p.2 = processed.count p.1) ∧
  (∀ r : CalibrationResponse, r ∈ processed ↔ r ∈ acc.map Prod.fst) ∧
  (acc.map Prod.fst).Nodup

/-! ## Lemmas: list and block basics -/

theorem length_mapIdxFrom (f : Nat → Nat → Nat) (i : Nat) (l : List Nat) :
    (mapIdxFrom f i l).length = l.length := by
  induction l generalizing i with
  | nil => rfl
  | cons x xs ih => simp [mapIdxFrom, ih]

theorem byteAt_cons (x : Nat) (xs : List Nat) (j : Nat) :
    byteAt (x :: xs) j = if j = 0 then x else byteAt xs (j - 1) := by
  cases j <;> simp [byteAt]

theorem byteAt_mapIdxFrom (f : Nat → Nat → Nat) (i j : Nat) (l : List Nat)
    (h : j < l.length) :
    byteAt (mapIdxFrom f i l) j = f (i + j) (byteAt l j) := by
  induction l generalizing i j with
  | nil => simp at h
  | cons x xs ih =>
      cases j with
      | zero => simp [mapIdxFrom, byteAt]
      | succ j =>
          have hj : j < xs.length := by simpa using h
          have := ih (i + 1) j hj
          simp only [mapIdxFrom, byteAt, List.getD_cons_succ] at this ⊢
          rw [this]
          congr 1
          omega

theorem byteAt_set_self (l : List Nat) (i v : Nat) (h : i < l.length) :
    byteAt (l.set i v) i = v := by
  induction l generalizing i with
  | nil => simp at h
  | cons x xs ih =>
      cases i with
      | zero => simp [byteAt]
      | succ i => simpa [byteAt] using ih i (by simpa using h)

theorem byteAt_set_ne (l : List Nat) (i j v : Nat) (h : j ≠ i) :
    byteAt (l.set i v) j = byteAt l j := by
  induction l generalizing i j with
  | nil => simp [byteAt]
  | cons x xs ih =>
      cases i with
      | zero => cases j with
          | zero => omega
          | succ j => simp [byteAt]
      | succ i =>
          cases j with
          | zero => simp [byteAt]
          | succ j => simpa [byteAt] using ih i j (by omega)

theorem ext_byteAt (l1 l2 : List Nat) (hlen : l1.length = l2.length)
    (h : ∀ i < l1.length, byteAt l1 i = byteAt l2 i) : l1 = l2 := by
  induction l1 generalizing l2 with
  | nil => cases l2 with
      | nil => rfl
      | cons y ys => simp at hlen
  | cons x xs ih =>
      cases l2 with
      | nil => simp at hlen
      | cons y ys =>
          have hx := h 0 (by simp)
          simp [byteAt] at hx
          have := ih ys (by simpa using hlen) fun i hi => by
            simpa [byteAt] using h (i + 1) (by simpa using Nat.succ_lt_succ hi)
          simp [hx, this]

theorem Block.data_mapData (b : Block) (f : List Nat → List Nat) :
    (b.mapData f).data = f b.data := by
  cases b <;> rfl

theorem Block.block_size_mapData (b : Block) (f : List Nat → List Nat) :
    (b.mapData f).block_size = b.block_size := by
  cases b <;> rfl

theorem Block.eq_of_data_eq (a b : Block) (hsz : a.block_size = b.block_size)
    (h : a.data = b.data) : a = b := by
  cases a <;> cases b <;> simp_all [Block.block_size, Block.data]

theorem natXor_cancel (x y : Nat) : Nat.xor (Nat.xor x y) y = x :=
  Nat.xor_cancel_right y x

theorem natXor_assoc (a b c : Nat) : Nat.xor (Nat.xor a b) c = Nat.xor a (Nat.xor b c) :=
  Nat.xor_assoc a b c

theorem natXor_self (a : Nat) : Nat.xor a a = 0 :=
  Nat.xor_self a

theorem natXor_zero_left (a : Nat) : Nat.xor 0 a = a :=
  Nat.zero_xor a

theorem zipWith_xor_cancel (d1 d2 : List Nat) (h : d1.length = d2.length) :
    List.zipWith Nat.xor (List.zipWith Nat.xor d1 d2) d2 = d1 := by
  induction d1 generalizing d2 with
  | nil => simp
  | cons x xs ih =>
      cases d2 with
      | nil => simp at h
      | cons y ys => simp [natXor_cancel, ih ys (by simpa using h)]

/-! ## Claim theorems -/

/-- C8: for every two blocks of equal size the XOR succeeds and is involutive
(`(a XOR b) XOR b == a`), while the XOR of an 8-byte with a 16-byte block
returns an error instead of a block. -/
theorem c8_block_xor (a b : Block) (ha : a.WF) (hb : b.WF)
    (hsz : a.block_size = b.block_size) :
    (∃ c, Block.xor a b = .ok c ∧ Block.xor c b = .ok a) ∧
    (∀ a2 b2 : Block, a2.block_size ≠ b2.block_size → ∃ e, Block.xor a2 b2 = .error e) := by
  constructor
  · obtain ⟨hlen1, -⟩ := ha
    obtain ⟨hlen2, -⟩ := hb
    cases a with
    | eight d1 =>
        cases b with
        | eight d2 =>
            refine ⟨Block.eight (List.zipWith Nat.xor d1 d2), rfl, ?_⟩
            simp only [Block.xor, Except.ok.injEq]
            have : d1.length = d2.length := by
              simp [Block.data, Block.block_size, BlockSize.val] at hlen1 hlen2
              omega
            simp [zipWith_xor_cancel d1 d2 this]
        | sixteen d2 => simp [Block.block_size] at hsz
    | sixteen d1 =>
        cases b with
        | eight d2 => simp [Block.block_size] at hsz
        | sixteen d2 =>
            refine ⟨Block.sixteen (List.zipWith Nat.xor d1 d2), rfl, ?_⟩
            simp only [Block.xor, Except.ok.injEq]
            have : d1.length = d2.length := by
              simp [Block.data, Block.block_size, BlockSize.val] at hlen1 hlen2
              omega
            simp [zipWith_xor_cancel d1 d2 this]
  · intro a2 b2 hne
    cases a2 <;> cases b2 <;> simp [Block.block_size] at hne ⊢ <;>
      exact ⟨_, rfl⟩

/-- Witness for C8 at a concrete pair of 8-byte blocks. -/
theorem c8_block_xor_witness :
    (∃ c, Block.xor (Block.eight [1, 2, 3, 4, 5, 6, 7, 8])
        (Block.eight [255, 0, 9, 16, 25, 36, 49, 64]) = .ok c ∧
      Block.xor c (Block.eight [255, 0, 9, 16, 25, 36, 49, 64]) =
        .ok (Block.eight [1, 2, 3, 4, 5, 6, 7, 8])) ∧
    (∀ a2 b2 : Block, a2.block_size ≠ b2.block_size → ∃ e, Block.xor a2 b2 = .error e) :=
  c8_block_xor (Block.eight [1, 2, 3, 4, 5, 6, 7, 8])
    (Block.eight [255, 0, 9, 16, 25, 36, 49, 64]) (by decide) (by decide) rfl

/-- C10: `increment_byte` on an in-range byte equal to `0xFF` is an error
(no wrap to 0); on an in-range byte below `0xFF` it adds exactly one and
leaves every other byte unchanged; an out-of-range index is an error.  In
this functional embedding an error carries no block, i.e. the block is
unchanged. -/
theorem c10_increment_byte (b : Block) (i : Nat) (h : b.WF) :
    (i < b.len → byteAt b.data i = 255 → ∃ e, b.increment_byte i = .error e) ∧
    (i < b.len → byteAt b.data i ≠ 255 →
      ∃ b2, b.increment_byte i = .ok b2 ∧ b2.block_size = b.block_size ∧
        byteAt b2.data i = byteAt b.data i + 1 ∧
        ∀ j, j ≠ i → byteAt b2.data j = byteAt b.data j) ∧
    (b.len ≤ i → ∃ e, b.increment_byte i = .error e) := by
  obtain ⟨hlen, -⟩ := h
  cases b with
  | eight d =>
      simp only [Block.len, Block.data, Block.block_size, BlockSize.val] at hlen ⊢
      refine ⟨fun hi h255 => ?_, fun hi h255 => ?_, fun hi => ?_⟩
      · simp [Block.increment_byte, Block.data, hlen ▸ hi, h255]
      · refine ⟨Block.eight (d.set i (byteAt d i + 1)), ?_, rfl, ?_, fun j hj => ?_⟩
        · simp [Block.increment_byte, hlen ▸ hi, h255]
        · simpa [Block.data] using byteAt_set_self d i _ (hlen ▸ hi)
        · simpa [Block.data] using byteAt_set_ne d i j _ hj
      · have : ¬ i < 8 := by omega
        simp [Block.increment_byte, this]
  | sixteen d =>
      simp only [Block.len, Block.data, Block.block_size, BlockSize.val] at hlen ⊢
      refine ⟨fun hi h255 => ?_, fun hi h255 => ?_, fun hi => ?_⟩
      · simp [Block.increment_byte, Block.data, hlen ▸ hi, h255]
      · refine ⟨Block.sixteen (d.set i (byteAt d i + 1)), ?_, rfl, ?_, fun j hj => ?_⟩
        · simp [Block.increment_byte, hlen ▸ hi, h255]
        · simpa [Block.data] using byteAt_set_self d i _ (hlen ▸ hi)
        · simpa [Block.data] using byteAt_set_ne d i j _ hj
      · have : ¬ i < 16 := by omega
        simp [Block.increment_byte, this]

/-- Witness for C10: incrementing byte 2 of a block holding 7 there, byte 0
holding 255, and an out-of-range index. -/
theorem c10_increment_byte_witness :
    ((2 : Nat) < (Block.eight [255, 1, 7, 0, 0, 0, 0, 9]).len ∧
      ∃ b2, (Block.eight [255, 1, 7, 0, 0, 0, 0, 9]).increment_byte 2 = .ok b2 ∧
        b2.block_size = (Block.eight [255, 1, 7, 0, 0, 0, 0, 9]).block_size ∧
        byteAt b2.data 2 = byteAt (Block.eight [255, 1, 7, 0, 0, 0, 0, 9]).data 2 + 1 ∧
        ∀ j, j ≠ 2 → byteAt b2.data j = byteAt (Block.eight [255, 1, 7, 0, 0, 0, 0, 9]).data j) ∧
    (∃ e, (Block.eight [255, 1, 7, 0, 0, 0, 0, 9]).increment_byte 0 = .error e) ∧
    (∃ e, (Block.eight [255, 1, 7, 0, 0, 0, 0, 9]).increment_byte 8 = .error e) := by
  refine ⟨⟨by decide, ?_⟩, ?_, ?_⟩
  · exact (c10_increment_byte (Block.eight [255, 1, 7, 0, 0, 0, 0, 9]) 2 (by decide)).2.1
      (by decide) (by decide)
  · exact (c10_increment_byte (Block.eight [255, 1, 7, 0, 0, 0, 0, 9]) 0 (by decide)).1
      (by decide) (by decide)
  · exact (c10_increment_byte (Block.eight [255, 1, 7, 0, 0, 0, 0, 9]) 8 (by decide)).2.2
      (by decide)

/-- C5 (code bug): the 8-byte arm of `Block::set_byte` adds the value into
the existing byte (`data[index] += value`) instead of overwriting it as the
16-byte arm does: on an 8-byte block whose byte 0 holds 1, `set_byte(0, 5)`
produces 6 where the claim requires 5.  The 16-byte arm and the out-of-range
behaviour do conform. -/
theorem c5_set_byte_eight_adds :
    (Block.eight [1, 0, 0, 0, 0, 0, 0, 0]).set_byte 0 5 =
        .ok (Block.eight [6, 0, 0, 0, 0, 0, 0, 0]) ∧
    (6 : Nat) ≠ 5 ∧
    (Block.sixteen [1, 0, 0, 0, 0, 0, 0, 0, 0, 0, 0, 0, 0, 0, 0, 0]).set_byte 0 5 =
        .ok (Block.sixteen [5, 0, 0, 0, 0, 0, 0, 0, 0, 0, 0, 0, 0, 0, 0, 0]) := by
  decide

theorem lock_byte_zero (g : ForgedCypherText) (h : g.current_byte_idx = 0) :
    g.lock_byte = .solved (SolvedForgedCypherText.from_forged
      { g with forged_block_solution :=
          (g.forged_block_solution.store g.current_byte_idx
            (byteAt g.forged_block_wip.data g.current_byte_idx)) }) := by
  simp [ForgedCypherText.lock_byte, h]

theorem lock_byte_pos (g : ForgedCypherText) (h : g.current_byte_idx ≠ 0) :
    g.lock_byte = .bytesLeft
      { g with
        forged_block_solution :=
          (g.forged_block_solution.store g.current_byte_idx
            (byteAt g.forged_block_wip.data g.current_byte_idx))
        current_byte_idx := g.current_byte_idx - 1 } := by
  simp [ForgedCypherText.lock_byte, h]

theorem lockTraceGo_eq (n : Nat) : ∀ g : ForgedCypherText, g.current_byte_idx = n →
    ForgedCypherText.lockTraceGo n g = (List.range (n + 1)).reverse := by
  induction n with
  | zero =>
      intro g hg
      simp only [ForgedCypherText.lockTraceGo, hg]
      decide
  | succ n ih =>
      intro g hg
      rw [ForgedCypherText.lockTraceGo, lock_byte_pos g (by omega)]
      have h2 := ih
        { g with
          forged_block_solution :=
            (g.forged_block_solution.store g.current_byte_idx
              (byteAt g.forged_block_wip.data g.current_byte_idx))
          current_byte_idx := g.current_byte_idx - 1 } (by simp [hg])
      simp [hg, List.range_succ] at h2 ⊢
      exact h2

/-- C2: a forged ciphertext starts with its cursor at `blocksize - 1`; each
`lock_byte` copies the WIP byte at the cursor into the solution block and
returns `Solved` exactly at cursor 0, otherwise decrements the cursor; hence
repeatedly locking from the initial state walks the byte indices in strictly
decreasing order `blocksize-1, …, 1, 0`. -/
theorem c2_lock_right_to_left (ct : CypherText) (i : Nat) (f : ForgedCypherText)
    (hne : ct.blocks ≠ []) (hinit : ForgedCypherText.from_cypher_text ct i = some f) :
    f.current_byte_idx = ct.block_size.val - 1 ∧
    (∀ g : ForgedCypherText,
      (g.current_byte_idx = 0 → g.lock_byte = .solved (SolvedForgedCypherText.from_forged
        { g with forged_block_solution :=
            (g.forged_block_solution.store g.current_byte_idx
              (byteAt g.forged_block_wip.data g.current_byte_idx)) })) ∧
      (g.current_byte_idx ≠ 0 → g.lock_byte = .bytesLeft
        { g with
          forged_block_solution :=
            (g.forged_block_solution.store g.current_byte_idx
              (byteAt g.forged_block_wip.data g.current_byte_idx))
          current_byte_idx := g.current_byte_idx - 1 })) ∧
    f.lockTrace = (List.range ct.block_size.val).reverse := by
  have hidx : f.current_byte_idx = ct.block_size.val - 1 := by
    simp only [ForgedCypherText.from_cypher_text] at hinit
    split at hinit
    · exact absurd hinit (by simp)
    · cases hinit
      rfl
  refine ⟨hidx, fun g => ⟨lock_byte_zero g, lock_byte_pos g⟩, ?_⟩
  have hval : 1 ≤ ct.block_size.val := by cases ct.block_size <;> simp [BlockSize.val]
  rw [ForgedCypherText.lockTrace, hidx, lockTraceGo_eq _ f hidx]
  have : ct.block_size.val - 1 + 1 = ct.block_size.val := by omega
  rw [this]

/-- Witness for C2 at a concrete two-block ciphertext and target index 1. -/
theorem c2_lock_right_to_left_witness :
    sampleForged.current_byte_idx = sampleCt.block_size.val - 1 ∧
    (∀ g : ForgedCypherText,
      (g.current_byte_idx = 0 → g.lock_byte = .solved (SolvedForgedCypherText.from_forged
        { g with forged_block_solution :=
            (g.forged_block_solution.store g.current_byte_idx
              (byteAt g.forged_block_wip.data g.current_byte_idx)) })) ∧
      (g.current_byte_idx ≠ 0 → g.lock_byte = .bytesLeft
        { g with
          forged_block_solution :=
            (g.forged_block_solution.store g.current_byte_idx
              (byteAt g.forged_block_wip.data g.current_byte_idx))
          current_byte_idx := g.current_byte_idx - 1 })) ∧
    sampleForged.lockTrace = (List.range sampleCt.block_size.val).reverse :=
  c2_lock_right_to_left sampleCt 1 sampleForged (by decide) (by decide)

theorem len_mapData (b : Block) (f : List Nat → List Nat)
    (hf : (f b.data).length = b.data.length) : (b.mapData f).len = b.len := by
  cases b <;> simpa [Block.mapData, Block.len, Block.data] using hf

theorem byteAt_to_adjusted_for_padding (b : Block) (k i : Nat) (h : i < b.len) :
    byteAt (b.to_adjusted_for_padding k).data i =
      if b.len - k ≤ i then Nat.xor (Nat.xor (byteAt b.data i) (b.len - i)) k
      else byteAt b.data i := by
  simp only [Block.to_adjusted_for_padding, Block.data_mapData]
  rw [byteAt_mapIdxFrom _ 0 i _ h]
  simp [Block.len]

theorem len_to_adjusted_for_padding (b : Block) (k : Nat) :
    (b.to_adjusted_for_padding k).len = b.len := by
  apply len_mapData
  exact length_mapIdxFrom _ _ _

theorem block_size_to_adjusted_for_padding (b : Block) (k : Nat) :
    (b.to_adjusted_for_padding k).block_size = b.block_size :=
  Block.block_size_mapData _ _

theorem byteAt_adjust_for_incremented_padding (b : Block) (p i : Nat) (h : i < b.len) :
    byteAt (b.adjust_for_incremented_padding p).data i =
      if b.len - (p - 1) ≤ i then Nat.xor (byteAt b.data i) (Nat.xor (p - 1) p)
      else byteAt b.data i := by
  simp only [Block.adjust_for_incremented_padding, Block.data_mapData]
  rw [byteAt_mapIdxFrom _ 0 i _ h]
  simp [Block.len]

theorem len_adjust_for_incremented_padding (b : Block) (p : Nat) :
    (b.adjust_for_incremented_padding p).len = b.len := by
  apply len_mapData
  exact length_mapIdxFrom _ _ _

theorem block_size_adjust_for_incremented_padding (b : Block) (p : Nat) :
    (b.adjust_for_incremented_padding p).block_size = b.block_size :=
  Block.block_size_mapData _ _

theorem adjustIter_one (b : Block) : b.adjustIter 1 = b := by
  simp [Block.adjustIter]

theorem adjustIter_succ (b : Block) (k : Nat) (hk : 1 ≤ k) :
    b.adjustIter (k + 1) = (b.adjustIter k).adjust_for_incremented_padding (k + 1) := by
  unfold Block.adjustIter
  have h1 : k + 1 - 1 = (k - 1) + 1 := by omega
  have h2 : 2 + 1 * (k - 1) = k + 1 := by omega
  rw [h1, List.range'_concat, List.foldl_append, h2]
  rfl

theorem adjustIter_eq_to_adjusted (b : Block) (k : Nat) (hwf : b.WF) (hk : 1 ≤ k)
    (hkN : k ≤ b.len) : b.adjustIter k = b.to_adjusted_for_padding k := by
  induction k with
  | zero => omega
  | succ k ih =>
      by_cases hk0 : k = 0
      · subst hk0
        rw [adjustIter_one]
        have hT : b.to_adjusted_for_padding (0 + 1) = b := by
          apply Block.eq_of_data_eq _ _ (block_size_to_adjusted_for_padding b _)
          apply ext_byteAt
          · have := len_to_adjusted_for_padding b (0 + 1)
            simpa [Block.len] using this
          intro i hi
          have hi2 : i < b.len := by
            have := len_to_adjusted_for_padding b (0 + 1)
            simp only [Block.len] at this hi ⊢
            omega
          rw [byteAt_to_adjusted_for_padding b (0 + 1) i hi2]
          rcases Nat.lt_or_ge i (b.len - 1) with hcase | hcase
          · rw [if_neg (by omega)]
          · have hli : b.len - i = 1 := by omega
            rw [if_pos (by omega), hli]
            simpa using natXor_cancel (byteAt b.data i) 1
        exact hT.symm
      · have hk1 : 1 ≤ k := by omega
        rw [adjustIter_succ b k hk1, ih hk1 (by omega)]
        apply Block.eq_of_data_eq
        · rw [block_size_adjust_for_incremented_padding, block_size_to_adjusted_for_padding,
            block_size_to_adjusted_for_padding]
        apply ext_byteAt
        · have l1 := len_adjust_for_incremented_padding (b.to_adjusted_for_padding k) (k + 1)
          have l2 := len_to_adjusted_for_padding b k
          have l3 := len_to_adjusted_for_padding b (k + 1)
          simp only [Block.len] at l1 l2 l3 ⊢
          omega
        intro i hi
        have hlen1 : (b.to_adjusted_for_padding k).len = b.len := len_to_adjusted_for_padding b k
        have hi0 : i < b.len := by
          have := len_adjust_for_incremented_padding (b.to_adjusted_for_padding k) (k + 1)
          simp only [Block.len] at this hi hlen1 ⊢
          omega
        rw [byteAt_adjust_for_incremented_padding _ (k + 1) i (by omega : i < (b.to_adjusted_for_padding k).len)]
        rw [byteAt_to_adjusted_for_padding b (k + 1) i hi0]
        have hsimp : k + 1 - 1 = k := by omega
        rw [hsimp, hlen1]
        rcases Nat.lt_or_ge i (b.len - k) with hcase | hcase
        · rcases Nat.lt_or_ge i (b.len - (k + 1)) with hcase2 | hcase2
          · rw [if_neg (by omega), if_neg (by omega),
              byteAt_to_adjusted_for_padding b k i hi0, if_neg (by omega)]
          · have hie : i = b.len - (k + 1) := by omega
            have hli : b.len - i = k + 1 := by omega
            rw [if_neg (by omega), if_pos (by omega),
              byteAt_to_adjusted_for_padding b k i hi0, if_neg (by omega), hli,
              natXor_cancel]
        · rw [if_pos (by omega), if_pos (by omega),
            byteAt_to_adjusted_for_padding b k i hi0, if_pos (by omega)]
          rw [natXor_assoc, ← natXor_assoc k k (k + 1), natXor_self, natXor_zero_left]

/-- C1: the padding-adjusted block the engine transmits to the oracle —
`to_adjusted_for_padding(wip, blocksize − current_byte_idx)` inside
`ForgedCypherText::encode` — rewrites exactly the last
`k = blocksize − current_byte_idx` positions to
`out[i] = wip[i] XOR (N − i) XOR k` and leaves the rest unchanged; moreover
it coincides with iterating the source's incremental
`adjust_for_incremented_padding` over the padding sizes `2, …, k`. -/
theorem c1_padding_adjusted_transmission (f : ForgedCypherText)
    (hwf : f.forged_block_wip.WF)
    (hsz : f.forged_block_wip.block_size = f.block_size)
    (hidx : f.current_byte_idx < f.block_size.val) :
    (∀ i < f.block_size.val,
      byteAt f.transmitted_forged_block.data i =
        if f.block_size.val - (f.block_size.val - f.current_byte_idx) ≤ i then
          Nat.xor (Nat.xor (byteAt f.forged_block_wip.data i) (f.block_size.val - i))
            (f.block_size.val - f.current_byte_idx)
        else byteAt f.forged_block_wip.data i) ∧
    f.transmitted_forged_block =
      f.forged_block_wip.adjustIter (f.block_size.val - f.current_byte_idx) := by
  have hlen : f.forged_block_wip.len = f.block_size.val := by
    rw [Block.len, hwf.1, hsz]
  constructor
  · intro i hi
    rw [ForgedCypherText.transmitted_forged_block,
      byteAt_to_adjusted_for_padding _ _ i (by omega), hlen]
  · rw [ForgedCypherText.transmitted_forged_block,
      adjustIter_eq_to_adjusted _ _ hwf (by omega) (by omega)]

/-- Witness for C1 at a concrete mid-attack forged state (cursor 5, so
padding size 3). -/
theorem c1_padding_adjusted_transmission_witness :
    (∀ i < sampleForgedMid.block_size.val,
      byteAt sampleForgedMid.transmitted_forged_block.data i =
        if sampleForgedMid.block_size.val -
            (sampleForgedMid.block_size.val - sampleForgedMid.current_byte_idx) ≤ i then
          Nat.xor (Nat.xor (byteAt sampleForgedMid.forged_block_wip.data i)
              (sampleForgedMid.block_size.val - i))
            (sampleForgedMid.block_size.val - sampleForgedMid.current_byte_idx)
        else byteAt sampleForgedMid.forged_block_wip.data i) ∧
    sampleForgedMid.transmitted_forged_block =
      sampleForgedMid.forged_block_wip.adjustIter
        (sampleForgedMid.block_size.val - sampleForgedMid.current_byte_idx) :=
  c1_padding_adjusted_transmission sampleForgedMid (by decide) (by decide) (by decide)

theorem byteAt_zipWith_xor (d1 d2 : List Nat) (i : Nat) (h1 : i < d1.length)
    (h2 : i < d2.length) :
    byteAt (List.zipWith Nat.xor d1 d2) i = Nat.xor (byteAt d1 i) (byteAt d2 i) := by
  induction d1 generalizing d2 i with
  | nil => simp at h1
  | cons x xs ih =>
      cases d2 with
      | nil => simp at h2
      | cons y ys =>
          cases i with
          | zero => simp [byteAt]
          | succ i =>
              simpa [byteAt] using ih ys i (by simpa using h1) (by simpa using h2)

theorem length_incremental_padding (bs : BlockSize) :
    (Block.new_incremental_padding bs).data.length = bs.val := by
  cases bs <;> rfl

theorem byteAt_incremental_padding (bs : BlockSize) (i : Nat) (h : i < bs.val) :
    byteAt (Block.new_incremental_padding bs).data i = bs.val - i := by
  cases bs <;> revert h <;> revert i <;> decide

theorem Block.xor_eq_ok (a b : Block) (hsz : a.block_size = b.block_size) :
    Block.xor a b = .ok (a.mapData fun d => List.zipWith Nat.xor d b.data) := by
  cases a <;> cases b <;> simp_all [Block.block_size, Block.xor, Block.mapData, Block.data]

theorem block_size_to_intermediate (b : Block) :
    b.to_intermediate.block_size = b.block_size :=
  Block.block_size_mapData _ _

theorem byteAt_to_intermediate (b : Block) (hwf : b.WF) (i : Nat)
    (h : i < b.block_size.val) :
    byteAt b.to_intermediate.data i = Nat.xor (byteAt b.data i) (b.block_size.val - i) := by
  have hl : b.data.length = b.block_size.val := hwf.1
  rw [Block.to_intermediate, Block.data_mapData,
    byteAt_zipWith_xor _ _ i (by omega) (by rw [length_incremental_padding]; omega),
    byteAt_incremental_padding b.block_size i h]

/-- C3: for a solved forged ciphertext, `plain_text_solution` is
`to_intermediate(solution) XOR original_prev_block`, i.e. byte `i` of the
result is `(S[i] XOR (N − i)) XOR P[i]` — the incremental-padding block being
`[N, N-1, …, 2, 1]`. -/
theorem c3_plain_text_solution (s : SolvedForgedCypherText)
    (hwf : s.forged_block_solution.WF) (hp : s.original_forged_block.WF)
    (hsz : s.forged_block_solution.block_size = s.original_forged_block.block_size) :
    ∃ c, s.plain_text_solution = .ok c ∧
      c.block_size = s.forged_block_solution.block_size ∧
      ∀ i < s.forged_block_solution.block_size.val,
        byteAt c.data i =
          Nat.xor (Nat.xor (byteAt s.forged_block_solution.data i)
              (s.forged_block_solution.block_size.val - i))
            (byteAt s.original_forged_block.data i) := by
  have hszi : s.forged_block_solution.to_intermediate.block_size =
      s.original_forged_block.block_size := by
    rw [block_size_to_intermediate, hsz]
  refine ⟨_, Block.xor_eq_ok _ _ hszi, ?_, ?_⟩
  · rw [Block.block_size_mapData, block_size_to_intermediate]
  · intro i hi
    rw [Block.data_mapData]
    have hlen1 : s.forged_block_solution.to_intermediate.data.length =
        s.forged_block_solution.block_size.val := by
      rw [Block.to_intermediate, Block.data_mapData, List.length_zipWith,
        length_incremental_padding, hwf.1]
      omega
    have hlen2 : s.original_forged_block.data.length =
        s.forged_block_solution.block_size.val := by
      rw [hp.1, hsz]
    rw [byteAt_zipWith_xor _ _ i (by omega) (by omega),
      byteAt_to_intermediate _ hwf i hi]

/-- Witness for C3 at a concrete solved state over 8-byte blocks. -/
theorem c3_plain_text_solution_witness :
    ∃ c, SolvedForgedCypherText.plain_text_solution
        { original_blocks := [Block.eight [9, 9, 9, 9, 9, 9, 9, 9],
            Block.eight [1, 2, 3, 4, 5, 6, 7, 8]]
          url_encoded := false
          used_encoding := .hex
          forged_block_solution := Block.eight [11, 22, 33, 44, 55, 66, 77, 88] } = .ok c ∧
      c.block_size = (Block.eight [11, 22, 33, 44, 55, 66, 77, 88]).block_size ∧
      ∀ i < (Block.eight [11, 22, 33, 44, 55, 66, 77, 88]).block_size.val,
        byteAt c.data i =
          Nat.xor (Nat.xor (byteAt (Block.eight [11, 22, 33, 44, 55, 66, 77, 88]).data i)
              ((Block.eight [11, 22, 33, 44, 55, 66, 77, 88]).block_size.val - i))
            (byteAt (Block.eight [9, 9, 9, 9, 9, 9, 9, 9]).data i) :=
  c3_plain_text_solution
    { original_blocks := [Block.eight [9, 9, 9, 9, 9, 9, 9, 9],
        Block.eight [1, 2, 3, 4, 5, 6, 7, 8]]
      url_encoded := false
      used_encoding := .hex
      forged_block_solution := Block.eight [11, 22, 33, 44, 55, 66, 77, 88] }
    (by decide) (by decide) (by decide)

theorem mapGet_cons {K V : Type} [DecidableEq K] (p : K × V) (rest : List (K × V)) (k : K) :
    mapGet (p :: rest) k = if p.1 = k then some p.2 else mapGet rest k := by
  by_cases h : p.1 = k
  · simp [mapGet, List.find?_cons_of_pos, h]
  · simp only [mapGet, if_neg h]
    rw [List.find?_cons_of_neg]
    simpa using h

theorem mapInsert_cons_ne {K V : Type} [DecidableEq K] (p : K × V) (rest : List (K × V))
    (k : K) (v : V) (h : p.1 ≠ k) :
    mapInsert (p :: rest) k v = p :: mapInsert rest k v := by
  by_cases ha : (rest.any fun q => q.1 == k) = true <;>
    simp [mapInsert, ha, h]

theorem mapGet_mapInsert_self {K V : Type} [DecidableEq K] (m : List (K × V)) (k : K) (v : V) :
    mapGet (mapInsert m k v) k = some v := by
  induction m with
  | nil => simp [mapInsert, mapGet]
  | cons p rest ih =>
      by_cases hpk : p.1 = k
      · have : (p :: rest).any (fun q => q.1 == k) = true := by simp [hpk]
        simp [mapInsert, this, mapGet_cons, hpk, mapGet, List.find?_cons_of_pos]
      · rw [mapInsert_cons_ne p rest k v hpk, mapGet_cons]
        simp [hpk, ih]

theorem mapGet_none {K V : Type} [DecidableEq K] (m : List (K × V)) (k : K)
    (h : ∀ p ∈ m, p.1 ≠ k) : mapGet m k = none := by
  induction m with
  | nil => rfl
  | cons p rest ih =>
      rw [mapGet_cons, if_neg (h p (by simp))]
      exact ih fun q hq => h q (by simp [hq])

/-- C9: `Cache::get` returns a value only when the `(prev, target)` pair is
present in the inner map stored under a `CacheConfig` structurally equal to
the cache's own; `Cache::insert` stores under the cache's own config; a cache
whose stored entries all live under a different config (different oracle
location or calibration signature) never returns anything. -/
theorem c9_cache_scoping (c : Cache) (key : Block × Block) (v : Block) :
    (∀ b, c.get key = some b →
      ∃ inner, mapGet c.data c.config = some inner ∧ mapGet inner key = some b) ∧
    ((c.insert key v).get key = some v ∧ (c.insert key v).config = c.config) ∧
    ((∀ p ∈ c.data, p.1 ≠ c.config) → c.get key = none) := by
  refine ⟨?_, ⟨?_, rfl⟩, ?_⟩
  · intro b hb
    rw [Cache.get] at hb
    exact Option.bind_eq_some.mp hb
  · simp only [Cache.insert, Cache.get]
    rw [mapGet_mapInsert_self]
    exact mapGet_mapInsert_self _ key v
  · intro h
    rw [Cache.get, mapGet_none _ _ h]
    rfl

/-- Witness for C9: inserting then reading back under the same config, and a
cache whose only entry lives under a different oracle identity yielding
nothing. -/
theorem c9_cache_scoping_witness :
    ((sampleCache.insert sampleKey sampleCachedBlock).get sampleKey = some sampleCachedBlock ∧
      (sampleCache.insert sampleKey sampleCachedBlock).config = sampleCache.config) ∧
    sampleCache.get sampleKey = none := by
  have h := c9_cache_scoping sampleCache sampleKey sampleCachedBlock
  exact ⟨h.2.1, h.2.2 (by decide)⟩

theorem countInv_bump (processed : List CalibrationResponse)
    (acc : List (CalibrationResponse × Nat)) (r : CalibrationResponse)
    (h : CountInv processed acc) : CountInv (processed ++ [r]) (bumpCount acc r) := by
  obtain ⟨hcnt, hmem, hnodup⟩ := h
  by_cases ha : (acc.any fun p => p.1 == r) = true
  · have hkeys : (bumpCount acc r).map Prod.fst = acc.map Prod.fst := by
      simp only [bumpCount, if_pos ha, List.map_map]
      apply List.map_congr_left
      intro p hp
      by_cases hpr : p.1 = r <;> simp [hpr]
    refine ⟨?_, ?_, ?_⟩
    · intro p hp
      simp only [bumpCount, if_pos ha, List.mem_map] at hp
      obtain ⟨q, hq, rfl⟩ := hp
      by_cases hqr : q.1 = r
      · simp only [hqr, beq_self_eq_true, if_pos]
        simp [List.count_append, hqr, hcnt q hq]
      · simp only [beq_iff_eq, hqr, if_neg, if_false]
        simp [List.count_append, hcnt q hq, hqr]
    · intro r2
      rw [hkeys, List.mem_append]
      constructor
      · rintro (h2 | h2)
        · exact (hmem r2).mp h2
        · simp only [List.mem_singleton] at h2
          subst h2
          simp only [List.any_eq_true, beq_iff_eq] at ha
          obtain ⟨p, hp, hpr⟩ := ha
          rw [← hpr]
          exact List.mem_map_of_mem Prod.fst hp
      · intro h2
        exact Or.inl ((hmem r2).mpr h2)
    · rw [hkeys]; exact hnodup
  · have hnk : ∀ p ∈ acc, p.1 ≠ r := by
      intro p hp hpr
      exact ha (by simp only [List.any_eq_true, beq_iff_eq]; exact ⟨p, hp, hpr⟩)
    have hrnot : r ∉ processed := by
      intro hr
      obtain ⟨q, hq, hqr⟩ := List.mem_map.mp ((hmem r).mp hr)
      exact hnk q hq hqr
    refine ⟨?_, ?_, ?_⟩
    · intro p hp
      simp only [bumpCount, if_neg ha, List.mem_append, List.mem_singleton] at hp
      rcases hp with hp | hp
      · simp [List.count_append, hcnt p hp, hnk p hp, List.count_singleton']
      · subst hp
        simp [List.count_append, List.count_eq_zero.mpr hrnot, List.count_singleton']
    · intro r2
      simp only [bumpCount, if_neg ha, List.map_append, List.map_cons, List.map_nil,
        List.mem_append, List.mem_singleton]
      constructor
      · rintro (h2 | h2)
        · exact Or.inl ((hmem r2).mp h2)
        · simp [h2]
      · rintro (h2 | h2)
        · exact Or.inl ((hmem r2).mpr h2)
        · simp [h2]
    · simp only [bumpCount, if_neg ha, List.map_append, List.map_cons, List.map_nil]
      rw [List.nodup_append]
      refine ⟨hnodup, List.nodup_singleton r, ?_⟩
      intro x hx
      simp only [List.mem_singleton]
      intro hxr
      subst hxr
      obtain ⟨q, hq, hqx⟩ := List.mem_map.mp hx
      exact hnk q hq hqx

theorem countInv_foldl (todo : List CalibrationResponse) :
    ∀ (processed : List CalibrationResponse) (acc : List (CalibrationResponse × Nat)),
      CountInv processed acc → CountInv (processed ++ todo) (todo.foldl bumpCount acc) := by
  induction todo with
  | nil => intro processed acc h; simpa using h
  | cons r rest ih =>
      intro processed acc h
      have h2 := ih (processed ++ [r]) (bumpCount acc r) (countInv_bump processed acc r h)
      simpa [List.append_assoc] using h2

theorem maxFold_spec (rest : List (CalibrationResponse × Nat)) :
    ∀ a : CalibrationResponse × Nat,
      (rest.foldl (fun best q => if best.2 ≤ q.2 then q else best) a = a ∨
        rest.foldl (fun best q => if best.2 ≤ q.2 then q else best) a ∈ rest) ∧
      a.2 ≤ (rest.foldl (fun best q => if best.2 ≤ q.2 then q else best) a).2 ∧
      ∀ q ∈ rest, q.2 ≤ (rest.foldl (fun best q => if best.2 ≤ q.2 then q else best) a).2 := by
  induction rest with
  | nil => intro a; exact ⟨Or.inl rfl, Nat.le_refl _, by simp⟩
  | cons q rest ih =>
      intro a
      simp only [List.foldl_cons]
      obtain ⟨ihmem, ihle, ihall⟩ := ih (if a.2 ≤ q.2 then q else a)
      have hstep_a : a.2 ≤ (if a.2 ≤ q.2 then q else a).2 := by
        by_cases h : a.2 ≤ q.2 <;> simp [h]
      have hstep_q : q.2 ≤ (if a.2 ≤ q.2 then q else a).2 := by
        by_cases h : a.2 ≤ q.2
        · simp [h]
        · simp [h]
          omega
      refine ⟨?_, Nat.le_trans hstep_a ihle, ?_⟩
      · rcases ihmem with h2 | h2
        · rw [h2]
          by_cases h : a.2 ≤ q.2 <;> simp [h]
        · exact Or.inr (by simp [h2])
      · intro p hp
        simp only [List.mem_cons] at hp
        rcases hp with rfl | hp
        · exact Nat.le_trans hstep_q ihle
        · exact ihall p hp

theorem maxByCount_spec (l : List (CalibrationResponse × Nat))
    (p : CalibrationResponse × Nat) (h : maxByCount l = some p) :
    p ∈ l ∧ ∀ q ∈ l, q.2 ≤ p.2 := by
  cases l with
  | nil => simp [maxByCount] at h
  | cons a rest =>
      simp only [maxByCount, Option.some.injEq] at h
      obtain ⟨hmem, hle, hall⟩ := maxFold_spec rest a
      subst h
      constructor
      · rcases hmem with h2 | h2
        · simp [h2]
        · simp [h2]
      · intro q hq
        simp only [List.mem_cons] at hq
        rcases hq with rfl | hq
        · exact hle
        · exact hall q hq

/-- C6: the calibrator's decision fails with the user-actionable
`--consider-body` diagnostic exactly when the 256 calibration responses hold
fewer than two distinct values; otherwise it returns a response of maximal
occurrence count among them. -/
theorem c6_calibration_majority (responses : List CalibrationResponse)
    (hlen : responses.length = 256) :
    (determine_padding_error_response responses =
        .error "Calibration of the web oracle failed. We don't know how a response to (in)correct padding looks, as all responses looked the same. Try adding the `--consider-body` flag" ↔
      responses.toFinset.card < 2) ∧
    (∀ r, determine_padding_error_response responses = .ok r →
      r ∈ responses ∧ ∀ r2 ∈ responses, responses.count r2 ≤ responses.count r) := by
  have inv : CountInv responses (countResponses responses) := by
    have h0 := countInv_foldl responses [] [] ⟨by simp, by simp, by simp⟩
    simpa [countResponses] using h0
  obtain ⟨hcnt, hmem, hnodup⟩ := inv
  have hkeys : ((countResponses responses).map Prod.fst).toFinset = responses.toFinset := by
    ext r
    simp only [List.mem_toFinset]
    exact (hmem r).symm
  have hcard : (countResponses responses).length = responses.toFinset.card := by
    rw [← hkeys, List.toFinset_card_of_nodup hnodup, List.length_map]
  by_cases hc : (countResponses responses).length < 2
  · have hdet : determine_padding_error_response responses =
        .error "Calibration of the web oracle failed. We don't know how a response to (in)correct padding looks, as all responses looked the same. Try adding the `--consider-body` flag" := by
      unfold determine_padding_error_response
      rw [if_pos hc]
    refine ⟨⟨fun _ => by omega, fun _ => hdet⟩, ?_⟩
    intro r hr
    rw [hdet] at hr
    simp at hr
  · have hne : countResponses responses ≠ [] := by
      intro hnil
      rw [hnil] at hc
      simp at hc
    obtain ⟨p, hp⟩ : ∃ p, maxByCount (countResponses responses) = some p := by
      cases hx : countResponses responses with
      | nil => exact absurd hx hne
      | cons a rest => exact ⟨_, rfl⟩
    have hdet : determine_padding_error_response responses = .ok p.1 := by
      unfold determine_padding_error_response
      rw [if_neg hc, hp]
    constructor
    · refine ⟨fun h2 => ?_, fun h2 => ?_⟩
      · rw [hdet] at h2
        simp at h2
      · exact absurd h2 (by omega)
    · intro r hr
      rw [hdet] at hr
      simp only [Except.ok.injEq] at hr
      subst hr
      obtain ⟨hpmem, hpmax⟩ := maxByCount_spec _ p hp
      have hp1 : p.1 ∈ responses := (hmem p.1).mpr (List.mem_map_of_mem Prod.fst hpmem)
      have hpc : p.2 = responses.count p.1 := hcnt p hpmem
      refine ⟨hp1, fun r2 hr2 => ?_⟩
      obtain ⟨q, hq, hqr⟩ := List.mem_map.mp ((hmem r2).mp hr2)
      have hle := hpmax q hq
      have hqc : q.2 = responses.count q.1 := hcnt q hq
      rw [← hqr, ← hqc, ← hpc]
      exact hle

/-- Witness for C6: 255 identical responses and one outlier; the majority
response is declared the padding-error signature. -/
theorem c6_calibration_majority_witness :
    (determine_padding_error_response sampleResponses =
        .error "Calibration of the web oracle failed. We don't know how a response to (in)correct padding looks, as all responses looked the same. Try adding the `--consider-body` flag" ↔
      sampleResponses.toFinset.card < 2) ∧
    (∀ r, determine_padding_error_response sampleResponses = .ok r →
      r ∈ sampleResponses ∧
      ∀ r2 ∈ sampleResponses, sampleResponses.count r2 ≤ sampleResponses.count r) :=
  c6_calibration_majority sampleResponses
    (by rw [sampleResponses, List.length_append, List.length_replicate]; rfl)

theorem set_current_byte_idx (f : ForgedCypherText) (v : Nat) :
    (f.set_current_byte v).current_byte_idx = f.current_byte_idx := rfl

theorem solveLoopGo_progress (n : Nat) :
    ∀ (oracle : ForgedCypherText → Bool) (f : ForgedCypherText), f.current_byte_idx = n →
      ∀ s prog, solveLoopGo oracle n f = .ok (s, prog) → prog = List.replicate (n + 1) 1 := by
  induction n with
  | zero =>
      intro oracle f hf s prog h
      rw [solveLoopGo] at h
      cases hfind : (List.range 256).find?
          (fun byte_value => oracle (f.set_current_byte byte_value)) with
      | none => rw [hfind] at h; cases h
      | some v =>
          simp only [hfind,
            lock_byte_zero (f.set_current_byte v)
              (by simpa [set_current_byte_idx] using hf)] at h
          simp only [Except.ok.injEq, Prod.mk.injEq] at h
          simp [← h.2]
  | succ n ih =>
      intro oracle f hf s prog h
      rw [solveLoopGo] at h
      cases hfind : (List.range 256).find?
          (fun byte_value => oracle (f.set_current_byte byte_value)) with
      | none => rw [hfind] at h; cases h
      | some v =>
          simp only [hfind,
            lock_byte_pos (f.set_current_byte v)
              (by simp [set_current_byte_idx, hf])] at h
          cases hrec : solveLoopGo oracle n
              { f.set_current_byte v with
                forged_block_solution :=
                  ((f.set_current_byte v).forged_block_solution.store
                    (f.set_current_byte v).current_byte_idx
                    (byteAt (f.set_current_byte v).forged_block_wip.data
                      (f.set_current_byte v).current_byte_idx))
                current_byte_idx := (f.set_current_byte v).current_byte_idx - 1 } with
          | error e => rw [hrec] at h; simp [Except.map] at h
          | ok r =>
              rw [hrec] at h
              simp only [Except.map, Except.ok.injEq, Prod.mk.injEq] at h
              have hidx2 : ({ f.set_current_byte v with
                  forged_block_solution :=
                    ((f.set_current_byte v).forged_block_solution.store
                      (f.set_current_byte v).current_byte_idx
                      (byteAt (f.set_current_byte v).forged_block_wip.data
                        (f.set_current_byte v).current_byte_idx))
                  current_byte_idx :=
                    (f.set_current_byte v).current_byte_idx - 1 } :
                  ForgedCypherText).current_byte_idx = n := by
                simp [set_current_byte_idx, hf]
              have hr2 := ih oracle _ hidx2 r.1 r.2 (by rw [hrec])
              rw [← h.2, hr2]
              rfl

/-- C7: a `(prev_block, target_block)` cache hit makes `solve_block` emit a
single whole-block progress tick and return a `Solved` built from the cached
block, independently of the oracle (no request is issued); on a miss, every
locked byte emits exactly one progress unit and the solved forged block is
inserted into the cache under the same key. -/
theorem c7_solve_block_cache (oracle : ForgedCypherText → Bool) (c : Cache)
    (f : ForgedCypherText) :
    (∀ b, c.get f.as_cache_key = some b → b.block_size = f.block_size →
      solve_block oracle (some c) f =
        .ok (SolvedForgedCypherText.from_cached f b, some c, [f.block_size.val])) ∧
    (c.get f.as_cache_key = none →
      ∀ s c2 prog, solve_block oracle (some c) f = .ok (s, c2, prog) →
        prog = List.replicate (f.current_byte_idx + 1) 1 ∧
        c2 = some (c.insert f.as_cache_key s.forged_block_solution)) := by
  constructor
  · intro b hb hbs
    rw [solve_block]
    simp only [Option.some_bind, hb, hbs]
  · intro hnone s c2 prog h
    rw [solve_block] at h
    simp only [Option.some_bind, hnone] at h
    cases hrec : solve_loop oracle f with
    | error e => rw [hrec] at h; simp [Except.map] at h
    | ok r =>
        rw [hrec] at h
        simp only [Except.map, Except.ok.injEq, Prod.mk.injEq] at h
        obtain ⟨hs, hc2, hprog⟩ := h
        have hr := solveLoopGo_progress f.current_byte_idx oracle f rfl r.1 r.2
          (by rw [← solve_loop, hrec])
        subst hs
        refine ⟨by rw [← hprog, hr], ?_⟩
        rw [← hc2]
        simp

/-- Witness for C7: a concrete cache hit returning the cached block with a
full-block tick, and a concrete miss under an always-accepting oracle, with
one progress unit per byte and the solution inserted. -/
theorem c7_solve_block_cache_witness :
    (solve_block (fun _ => false) (some sampleCacheHit) sampleForged =
      .ok (SolvedForgedCypherText.from_cached sampleForged sampleCachedBlock,
        some sampleCacheHit, [sampleForged.block_size.val])) ∧
    (List.replicate 8 1 = List.replicate (sampleForged.current_byte_idx + 1) 1 ∧
      some (sampleCache.insert sampleForged.as_cache_key
          sampleSolvedZero.forged_block_solution) =
        some (sampleCache.insert sampleForged.as_cache_key
          sampleSolvedZero.forged_block_solution)) := by
  have h1 := (c7_solve_block_cache (fun _ => false) sampleCacheHit sampleForged).1
    sampleCachedBlock (by decide) (by decide)
  have h2 := (c7_solve_block_cache (fun _ => true) sampleCache sampleForged).2
    (by decide) sampleSolvedZero
    (some (sampleCache.insert sampleForged.as_cache_key
      sampleSolvedZero.forged_block_solution))
    (List.replicate 8 1) (by decide)
  exact ⟨h1, h2⟩

theorem hexVal_hexDigit (v : Nat) (h : v < 16) : hexVal (hexDigit v) = some v := by
  revert h
  revert v
  decide

theorem hexDigit_range (v : Nat) (h : v < 16) :
    (48 ≤ hexDigit v ∧ hexDigit v ≤ 57) ∨ (97 ≤ hexDigit v ∧ hexDigit v ≤ 102) := by
  revert h
  revert v
  decide

theorem hexDecode_hexEncode (bytes : List Nat) (h : ∀ b ∈ bytes, b < 256) :
    hexDecode (hexEncode bytes) = some bytes := by
  induction bytes with
  | nil => rfl
  | cons b bs ih =>
      have hb : b < 256 := h b (by simp)
      have hrest : ∀ b2 ∈ bs, b2 < 256 := fun b2 hb2 => h b2 (by simp [hb2])
      simp only [hexEncode, List.flatMap_cons]
      simp only [List.append_eq, List.cons_append, List.nil_append, hexDecode,
        hexVal_hexDigit (b / 16) (by omega), hexVal_hexDigit (b % 16) (by omega)]
      rw [show hexEncode bs = bs.flatMap fun b2 => [hexDigit (b2 / 16), hexDigit (b2 % 16)]
        from rfl] at ih
      rw [ih hrest]
      simp only [Option.map]
      congr 2
      omega

theorem hexEncode_chars (bytes : List Nat) (h : ∀ b ∈ bytes, b < 256) :
    ∀ c ∈ hexEncode bytes, c ≠ 37 ∧ c < 128 := by
  intro c hc
  simp only [hexEncode, List.mem_flatMap] at hc
  obtain ⟨b, hb, hcb⟩ := hc
  have hb2 : b < 256 := h b hb
  have h1 := hexDigit_range (b / 16) (by omega)
  have h2 := hexDigit_range (b % 16) (by omega)
  simp only [List.mem_cons, List.mem_singleton] at hcb
  rcases hcb with rfl | rfl | hfalse
  · omega
  · omega
  · simp at hfalse

theorem hexVal_hexDigitUpper (v : Nat) (h : v < 16) : hexVal (hexDigitUpper v) = some v := by
  revert h
  revert v
  decide

theorem urlUnreserved_ne_37 (c : Nat) (h : urlUnreserved c = true) : c ≠ 37 := by
  intro hc
  subst hc
  simp [urlUnreserved] at h

theorem urlDecodeGo_no_escape (fuel : Nat) :
    ∀ s : List Nat, s.length ≤ fuel → (∀ c ∈ s, c ≠ 37) →
      urlDecodeGo fuel s = some s := by
  induction fuel with
  | zero =>
      intro s hlen hpc
      have : s = [] := by
        cases s with
        | nil => rfl
        | cons c rest => simp at hlen
      subst this
      rfl
  | succ fuel ih =>
      intro s hlen hpc
      cases s with
      | nil => rfl
      | cons c rest =>
          have hc : c ≠ 37 := hpc c (by simp)
          simp only [urlDecodeGo, if_neg hc]
          rw [ih rest (by simpa using hlen) fun c2 hc2 => hpc c2 (by simp [hc2])]
          rfl

theorem urlDecode_no_escape (s : List Nat) (h : ∀ c ∈ s, c ≠ 37) :
    urlDecode s = some s :=
  urlDecodeGo_no_escape s.length s (Nat.le_refl _) h

theorem urlDecodeGo_urlEncode (fuel : Nat) :
    ∀ s : List Nat, (urlEncode s).length ≤ fuel → (∀ c ∈ s, c < 128) →
      urlDecodeGo fuel (urlEncode s) = some s := by
  induction fuel with
  | zero =>
      intro s hlen hc
      cases s with
      | nil => rfl
      | cons c rest =>
          exfalso
          simp only [urlEncode, List.flatMap_cons] at hlen
          by_cases hu : urlUnreserved c <;> simp [hu] at hlen
  | succ fuel ih =>
      intro s hlen hc
      cases s with
      | nil => rfl
      | cons c rest =>
          have hc0 : c < 128 := hc c (by simp)
          have hcrest : ∀ c2 ∈ rest, c2 < 128 := fun c2 h2 => hc c2 (by simp [h2])
          by_cases hu : urlUnreserved c = true
          · have henc : urlEncode (c :: rest) = c :: urlEncode rest := by
              simp [urlEncode, List.flatMap_cons, hu]
            rw [henc]
            simp only [urlDecodeGo, if_neg (urlUnreserved_ne_37 c hu)]
            rw [ih rest (by rw [henc] at hlen; simpa using hlen) hcrest]
            rfl
          · have henc : urlEncode (c :: rest) =
                37 :: hexDigitUpper (c / 16) :: hexDigitUpper (c % 16) :: urlEncode rest := by
              simp [urlEncode, List.flatMap_cons, hu]
            have hv1 : hexVal (hexDigitUpper (c / 16)) = some (c / 16) :=
              hexVal_hexDigitUpper _ (by omega)
            have hv2 : hexVal (hexDigitUpper (c % 16)) = some (c % 16) :=
              hexVal_hexDigitUpper _ (by omega)
            have hlen2 : (urlEncode rest).length ≤ fuel := by
              rw [henc] at hlen
              simp only [List.length_cons] at hlen
              omega
            rw [henc]
            simp only [urlDecodeGo, if_pos rfl, hv1, hv2]
            rw [if_pos (show c / 16 * 16 + c % 16 < 128 by omega)]
            rw [ih rest hlen2 hcrest]
            simp only [Option.map]
            have hval : c / 16 * 16 + c % 16 = c := by omega
            rw [hval]
            simp

theorem b64Std_idx_char (v : Nat) (h : v < 64) :
    b64Idx b64StdAlphabet (b64Char b64StdAlphabet v) = some v := by
  revert h
  revert v
  decide

theorem b64Url_idx_char (v : Nat) (h : v < 64) :
    b64Idx b64UrlAlphabet (b64Char b64UrlAlphabet v) = some v := by
  revert h
  revert v
  decide

theorem b64Std_char_props (v : Nat) (h : v < 64) :
    b64Char b64StdAlphabet v ≠ 61 ∧ b64Char b64StdAlphabet v ≠ 37 ∧
      b64Char b64StdAlphabet v < 128 := by
  revert h
  revert v
  decide

theorem b64Url_char_props (v : Nat) (h : v < 64) :
    b64Char b64UrlAlphabet v ≠ 61 ∧ b64Char b64UrlAlphabet v ≠ 37 ∧
      b64Char b64UrlAlphabet v < 128 := by
  revert h
  revert v
  decide

theorem b64_roundtrip_aux (alphabet : List Nat)
    (hIdx : ∀ v, v < 64 → b64Idx alphabet (b64Char alphabet v) = some v)
    (hNe : ∀ v, v < 64 → b64Char alphabet v ≠ 61) :
    ∀ (n : Nat) (bytes : List Nat), bytes.length ≤ n → (∀ b ∈ bytes, b < 256) →
      b64Decode alphabet (b64Encode alphabet bytes) = some bytes := by
  intro n
  induction n with
  | zero =>
      intro bytes hlen hb
      cases bytes with
      | nil => rfl
      | cons b bs => simp at hlen
  | succ n ih =>
      intro bytes hlen hb
      rcases bytes with _ | ⟨b1, _ | ⟨b2, _ | ⟨b3, rest⟩⟩⟩
      · rfl
      · have h1 : b1 < 256 := hb b1 (by simp)
        have hv1 := hIdx (b1 / 4) (by omega)
        have hv2 := hIdx (b1 % 4 * 16) (by omega)
        simp only [b64Encode, b64Decode, hv1, hv2, if_true, true_and]
        rw [if_pos (show b1 % 4 * 16 % 16 = 0 by omega)]
        have hA : b1 / 4 * 4 + b1 % 4 * 16 / 16 = b1 := by omega
        rw [hA]
      · have h1 : b1 < 256 := hb b1 (by simp)
        have h2 : b2 < 256 := hb b2 (by simp)
        have hv1 := hIdx (b1 / 4) (by omega)
        have hv2 := hIdx (b1 % 4 * 16 + b2 / 16) (by omega)
        have hv3 := hIdx (b2 % 16 * 4) (by omega)
        have hne3 := hNe (b2 % 16 * 4) (by omega)
        simp only [b64Encode, b64Decode, hv1, hv2, hv3, if_true, true_and]
        rw [if_pos (show b2 % 16 * 4 % 4 = 0 by omega)]
        have hA : b1 / 4 * 4 + (b1 % 4 * 16 + b2 / 16) / 16 = b1 := by omega
        have hB : (b1 % 4 * 16 + b2 / 16) % 16 * 16 + b2 % 16 * 4 / 4 = b2 := by omega
        rw [hA, hB, if_neg hne3]
      · have h1 : b1 < 256 := hb b1 (by simp)
        have h2 : b2 < 256 := hb b2 (by simp)
        have h3 : b3 < 256 := hb b3 (by simp)
        have hrest : ∀ b ∈ rest, b < 256 := fun b hb2 => hb b (by simp [hb2])
        have hv1 := hIdx (b1 / 4) (by omega)
        have hv2 := hIdx (b1 % 4 * 16 + b2 / 16) (by omega)
        have hv3 := hIdx (b2 % 16 * 4 + b3 / 64) (by omega)
        have hv4 := hIdx (b3 % 64) (by omega)
        have hne3 := hNe (b2 % 16 * 4 + b3 / 64) (by omega)
        have hne4 := hNe (b3 % 64) (by omega)
        have hrec := ih rest (by simp only [List.length_cons] at hlen; omega) hrest
        simp only [b64Encode, b64Decode, hv1, hv2, hv3, hv4, hrec, if_true, true_and]
        simp only [Option.map]
        have hA : b1 / 4 * 4 + (b1 % 4 * 16 + b2 / 16) / 16 = b1 := by omega
        have hB : (b1 % 4 * 16 + b2 / 16) % 16 * 16 + (b2 % 16 * 4 + b3 / 64) / 4 = b2 := by
          omega
        have hC : (b2 % 16 * 4 + b3 / 64) % 4 * 64 + b3 % 64 = b3 := by omega
        rw [hA, hB, hC, if_neg hne3, if_neg hne4]

theorem b64Decode_b64Encode_std (bytes : List Nat) (h : ∀ b ∈ bytes, b < 256) :
    b64Decode b64StdAlphabet (b64Encode b64StdAlphabet bytes) = some bytes :=
  b64_roundtrip_aux b64StdAlphabet b64Std_idx_char
    (fun v hv => (b64Std_char_props v hv).1) bytes.length bytes (Nat.le_refl _) h

theorem b64Decode_b64Encode_url (bytes : List Nat) (h : ∀ b ∈ bytes, b < 256) :
    b64Decode b64UrlAlphabet (b64Encode b64UrlAlphabet bytes) = some bytes :=
  b64_roundtrip_aux b64UrlAlphabet b64Url_idx_char
    (fun v hv => (b64Url_char_props v hv).1) bytes.length bytes (Nat.le_refl _) h

theorem b64Encode_chars_aux (alphabet : List Nat)
    (hprops : ∀ v, v < 64 → b64Char alphabet v ≠ 37 ∧ b64Char alphabet v < 128) :
    ∀ (n : Nat) (bytes : List Nat), bytes.length ≤ n → (∀ b ∈ bytes, b < 256) →
      ∀ c ∈ b64Encode alphabet bytes, c ≠ 37 ∧ c < 128 := by
  intro n
  induction n with
  | zero =>
      intro bytes hlen hb
      cases bytes with
      | nil => simp [b64Encode]
      | cons b bs => simp at hlen
  | succ n ih =>
      intro bytes hlen hb c hc
      rcases bytes with _ | ⟨b1, _ | ⟨b2, _ | ⟨b3, rest⟩⟩⟩
      · simp [b64Encode] at hc
      · have h1 : b1 < 256 := hb b1 (by simp)
        simp only [b64Encode, List.mem_cons, List.mem_singleton] at hc
        rcases hc with rfl | rfl | rfl | rfl | hfalse
        · exact hprops _ (by omega)
        · exact hprops _ (by omega)
        · omega
        · omega
        · simp at hfalse
      · have h1 : b1 < 256 := hb b1 (by simp)
        have h2 : b2 < 256 := hb b2 (by simp)
        simp only [b64Encode, List.mem_cons, List.mem_singleton] at hc
        rcases hc with rfl | rfl | rfl | rfl | hfalse
        · exact hprops _ (by omega)
        · exact hprops _ (by omega)
        · exact hprops _ (by omega)
        · omega
        · simp at hfalse
      · have h1 : b1 < 256 := hb b1 (by simp)
        have h2 : b2 < 256 := hb b2 (by simp)
        have h3 : b3 < 256 := hb b3 (by simp)
        have hrest : ∀ b ∈ rest, b < 256 := fun b hb2 => hb b (by simp [hb2])
        simp only [b64Encode, List.mem_cons] at hc
        rcases hc with rfl | rfl | rfl | rfl | hmem
        · exact hprops _ (by omega)
        · exact hprops _ (by omega)
        · exact hprops _ (by omega)
        · exact hprops _ (by omega)
        · exact ih rest (by simp only [List.length_cons] at hlen; omega) hrest c hmem

theorem encodeData_chars (e : Encoding) (bytes : List Nat) (h : ∀ b ∈ bytes, b < 256) :
    ∀ c ∈ encodeData e bytes, c ≠ 37 ∧ c < 128 := by
  cases e with
  | hex => exact hexEncode_chars bytes h
  | base64 =>
      exact b64Encode_chars_aux b64StdAlphabet
        (fun v hv => (b64Std_char_props v hv).2) bytes.length bytes (Nat.le_refl _) h
  | base64Url =>
      exact b64Encode_chars_aux b64UrlAlphabet
        (fun v hv => (b64Url_char_props v hv).2) bytes.length bytes (Nat.le_refl _) h

theorem blockSize_val_pos (bs : BlockSize) : 1 ≤ bs.val := by
  cases bs <;> simp [BlockSize.val]

theorem chunkBytesGo_flatten (bs : BlockSize) :
    ∀ (fuel : Nat) (ds : List (List Nat)), ds.flatten.length ≤ fuel →
      (∀ d ∈ ds, d.length = bs.val) → chunkBytesGo bs fuel ds.flatten = ds := by
  intro fuel
  induction fuel with
  | zero =>
      intro ds hlen hd
      cases ds with
      | nil => rfl
      | cons d rest =>
          exfalso
          have hdl : d.length = bs.val := hd d (by simp)
          have hpos := blockSize_val_pos bs
          simp only [List.flatten_cons, List.length_append] at hlen
          omega
  | succ fuel ih =>
      intro ds hlen hd
      cases ds with
      | nil => rfl
      | cons d rest =>
          have hdl : d.length = bs.val := hd d (by simp)
          have hpos := blockSize_val_pos bs
          cases hdc : d with
          | nil =>
              exfalso
              rw [hdc] at hdl
              simp at hdl
              omega
          | cons x xs =>
              subst hdc
              simp only [List.flatten_cons, List.cons_append]
              rw [chunkBytesGo]
              rw [← List.cons_append, List.take_left' hdl, List.drop_left' hdl]
              have hlen2 : rest.flatten.length ≤ fuel := by
                simp only [List.flatten_cons, List.length_append] at hlen
                omega
              rw [ih rest hlen2 fun d2 hd2 => hd d2 (by simp [hd2])]

theorem chunkBytes_flatMap (bs : BlockSize) (blocks : List Block)
    (h : ∀ b ∈ blocks, b.data.length = bs.val) :
    chunkBytes bs (blocks.flatMap Block.data) = blocks.map Block.data := by
  rw [chunkBytes, List.flatMap_def]
  exact chunkBytesGo_flatten bs _ (blocks.map Block.data) (Nat.le_refl _)
    (by
      intro d hd
      obtain ⟨b, hb, rfl⟩ := List.mem_map.mp hd
      exact h b hb)

theorem flatMap_data_length_mod (bs : BlockSize) (blocks : List Block)
    (h : ∀ b ∈ blocks, b.data.length = bs.val) :
    (blocks.flatMap Block.data).length % bs.val = 0 := by
  induction blocks with
  | nil => simp
  | cons b rest ih =>
      simp only [List.flatMap_cons, List.length_append]
      rw [h b (by simp), Nat.add_mod_left]
      exact ih fun b2 h2 => h b2 (by simp [h2])

theorem bytesToBlock_data (b : Block) (hwf : b.WF) : bytesToBlock b.data = b := by
  cases b with
  | eight d =>
      have : d.length = 8 := hwf.1
      simp [bytesToBlock, Block.data, this]
  | sixteen d =>
      have : d.length = 16 := hwf.1
      simp [bytesToBlock, Block.data, this]

theorem split_into_blocks_join (bs : BlockSize) (blocks : List Block)
    (h : ∀ b ∈ blocks, b.WF ∧ b.block_size = bs) :
    split_into_blocks (blocks.flatMap Block.data) bs = .ok blocks := by
  have hlen : ∀ b ∈ blocks, b.data.length = bs.val := by
    intro b hb
    rw [(h b hb).1.1, (h b hb).2]
  unfold split_into_blocks
  rw [if_neg (show ¬(blocks.flatMap Block.data).length % bs.val ≠ 0 from
    not_not.mpr (flatMap_data_length_mod bs blocks hlen))]
  rw [chunkBytes_flatMap bs blocks hlen, List.map_map]
  congr 1
  have : ∀ b ∈ blocks, (bytesToBlock ∘ Block.data) b = id b := by
    intro b hb
    simp [Function.comp, bytesToBlock_data b (h b hb).1]
  rw [List.map_congr_left this, List.map_id]

theorem try_from_of (e : Encoding) : Encoding.try_from (EncodingOption.of e) = .ok e := by
  cases e <;> rfl

theorem decode_encodeData (e : Encoding) (bytes : List Nat) (h : ∀ b ∈ bytes, b < 256) :
    decode (encodeData e bytes) (EncodingOption.of e) = .ok (bytes, e) := by
  cases e with
  | hex =>
      simp only [EncodingOption.of, decode, Encoding.try_from, encodeData]
      rw [hexDecode_hexEncode bytes h]
  | base64 =>
      simp only [EncodingOption.of, decode, Encoding.try_from, encodeData]
      rw [b64Decode_b64Encode_std bytes h]
  | base64Url =>
      simp only [EncodingOption.of, decode, Encoding.try_from, encodeData]
      rw [b64Decode_b64Encode_url bytes h]

/-- C4 (counterexample to the claim as stated): the string of 32 `A`s is
produced by the codec itself (standard base64 of three zero 8-byte blocks),
yet parsing it back — with block size 8, the `Auto` encoding option and URL
decoding disabled — succeeds via the hex decoder tried first, and re-encoding
yields 32 lowercase `a`s, not the original string. -/
theorem c4_roundtrip_counterexample :
    CypherText.encode ctAllZero = List.replicate 32 65 ∧
    (CypherText.parse (List.replicate 32 65) BlockSize.eight false
        EncodingOption.auto true).map CypherText.encode = .ok (List.replicate 32 97) ∧
    List.replicate 32 97 ≠ List.replicate 32 65 := by
  decide

/-- C4 (amended): the codec round-trips on its own output when the parse is
given the concrete encoding the string was produced with (rather than
`Auto`): `parse` succeeds, recovers exactly the original blocks and encoding,
and re-encoding returns the input string; `encode` is a pure function of the
parsed ciphertext, hence deterministic. -/
theorem c4_codec_roundtrip_amended (ct : CypherText) (h : ct.WF) :
    ∃ ct2, CypherText.parse ct.encode ct.block_size false
        (EncodingOption.of ct.used_encoding) false = .ok ct2 ∧
      ct2.blocks = ct.blocks ∧ ct2.used_encoding = ct.used_encoding ∧
      ct2.encode = ct.encode := by
  obtain ⟨hlen2, hblocks⟩ := h
  have hraw : ∀ b ∈ ct.blocks.flatMap Block.data, b < 256 := by
    intro b hb
    simp only [List.mem_flatMap] at hb
    obtain ⟨blk, hblk, hbmem⟩ := hb
    exact (hblocks blk hblk).1.2 b hbmem
  have hbase_chars : ∀ c ∈ encodeData ct.used_encoding (ct.blocks.flatMap Block.data),
      c ≠ 37 ∧ c < 128 := encodeData_chars _ _ hraw
  have hx : ct.encode = if ct.url_encoded then
      urlEncode (encodeData ct.used_encoding (ct.blocks.flatMap Block.data))
    else encodeData ct.used_encoding (ct.blocks.flatMap Block.data) := rfl
  have hdec : (urlDecode ct.encode).getD ct.encode =
      encodeData ct.used_encoding (ct.blocks.flatMap Block.data) := by
    rw [hx]
    by_cases hu : ct.url_encoded
    · rw [if_pos hu]
      unfold urlDecode
      rw [urlDecodeGo_urlEncode _ _ (Nat.le_refl _) fun c hc => (hbase_chars c hc).2]
      rfl
    · rw [if_neg hu, urlDecode_no_escape _ fun c hc => (hbase_chars c hc).1]
      rfl
  refine ⟨{ blocks := ct.blocks,
            url_encoded := decide ¬(ct.encode =
              encodeData ct.used_encoding (ct.blocks.flatMap Block.data)),
            used_encoding := ct.used_encoding }, ?_, rfl, rfl, ?_⟩
  · unfold CypherText.parse
    simp only [if_neg (show ¬(false = true) by simp), hdec,
      decode_encodeData ct.used_encoding _ hraw,
      split_into_blocks_join ct.block_size ct.blocks hblocks]
    rw [if_neg (show ¬(ct.blocks.length = 1) by omega)]
  · revert hx
    generalize ct.encode = x
    intro hx
    by_cases hxb : x = encodeData ct.used_encoding (ct.blocks.flatMap Block.data)
    · simp only [CypherText.encode]
      rw [if_neg (show ¬((decide
          ¬(x = encodeData ct.used_encoding (ct.blocks.flatMap Block.data))) = true) by
        simp [hxb])]
      exact hxb.symm
    · simp only [CypherText.encode]
      rw [if_pos (show (decide
          ¬(x = encodeData ct.used_encoding (ct.blocks.flatMap Block.data))) = true by
        simp [hxb])]
      by_cases hu : ct.url_encoded
      · rw [hx, if_pos hu]
      · exfalso
        rw [hx, if_neg hu] at hxb
        exact hxb rfl

/-- Witness for the amended C4 at a URL-encoded base64 two-block
ciphertext. -/
theorem c4_codec_roundtrip_amended_witness :
    ∃ ct2, CypherText.parse sampleCtUrl.encode sampleCtUrl.block_size false
        (EncodingOption.of sampleCtUrl.used_encoding) false = .ok ct2 ∧
      ct2.blocks = sampleCtUrl.blocks ∧ ct2.used_encoding = sampleCtUrl.used_encoding ∧
      ct2.encode = sampleCtUrl.encode :=
  c4_codec_roundtrip_amended sampleCtUrl (by decide)

end Rustpad
